import Mathlib

/-!
Evaluator: a bytebeat plug-in.

A shallow embedding of `Evaluator.cpp` / `Interface.cpp` (the plug-in shell: MIDI handling,
tick counters, recompilation, state (de)serialisation, output scaling) together with a model
of the expression core (`Program`: lexer, parser, compiler, virtual machine), whose source
is not part of the two files and is therefore modelled from the written specification.
-/

set_option maxRecDepth 100000

namespace EvaluatorPlug

/-! ## The expression core (`Program`) -/

/-- Modelled from the spec: `Program::Value`, "an unsigned 64-bit integer"; a natural number
kept below `2 ^ 64` by every operation that stores or computes one. -/
abbrev Value := Nat

/-- Modelled from the spec: the modulus of `Program::Value` arithmetic (64 bits). -/
def valueModulus : Nat := 2 ^ 64

/-- Modelled from the spec: conversion of an integer to `Program::Value` (reduction
modulo `2 ^ 64`). -/
def toValue (x : Nat) : Value := x % valueModulus

/-- Modelled from the spec: `Program::CompileError`, the closed set of syntax-failure kinds
of section 7 plus the "no error" sentinel `CE_NONE` that `Evaluator.cpp` tests for. -/
inductive CompileError
  | CE_NONE
  | CE_UNEXPECTED_TOKEN
  | CE_UNTERMINATED_EXPRESSION
  | CE_UNBALANCED_PARENTHESIS
  | CE_UNKNOWN_IDENTIFIER
  | CE_LEXICAL_ERROR
  deriving DecidableEq, Repr

/-- Modelled from the spec: `Program::RuntimeError`, the closed set of execution-failure
kinds of section 7 plus the "no error" sentinel `RE_NONE` that `Evaluator.cpp` tests for. -/
inductive RuntimeError
  | RE_NONE
  | RE_DIVISION_BY_ZERO
  | RE_MODULO_BY_ZERO
  | RE_INSTRUCTION_LIMIT_EXCEEDED
  deriving DecidableEq, Repr

/-- Modelled from the spec: the binary operators of section 4.2 (multiplicative, additive,
bit-shift, relational/equality, bitwise AND/XOR/OR, logical AND/OR). -/
inductive BinOp
  | mul | div | mod
  | add | sub
  | shl | shr
  | lt | gt | le | ge | eq | ne
  | band | bxor | bor
  | land | lor
  deriving DecidableEq, Repr

/-- Modelled from the spec: the unary operators of section 4.2 (negation, bitwise not). -/
inductive UnOp
  | neg | bnot
  deriving DecidableEq, Repr

/-- Modelled from the spec: the primitive operations of section 4.3 (load-constant,
load-variable, arithmetic/bitwise/compare op, conditional-select). The language of the model
has no assignment, so there is no store-variable instruction. -/
inductive Instr
  | loadConst (v : Value)
  | loadVar (c : Char)
  | unary (op : UnOp)
  | binary (op : BinOp)
  | select
  deriving DecidableEq, Repr

/-- Modelled from the spec: the Variable Table, "a fixed, small table mapping
single-character identifiers to 64-bit unsigned values" with the entries
`r ~ n v t m q` (`sr` is the entry of `~`). -/
structure VariableTable where
  r : Value
  sr : Value
  n : Value
  v : Value
  t : Value
  m : Value
  q : Value
  deriving DecidableEq, Repr

/-- Modelled from the spec: the table of a freshly compiled program (every entry 0). -/
def VariableTable.zero : VariableTable := ⟨0, 0, 0, 0, 0, 0, 0⟩

/-- Modelled from the spec: whether a character is one of the recognised identifiers
`r ~ n v t m q`. -/
def isVariableName (c : Char) : Bool :=
  c == 'r' || c == '~' || c == 'n' || c == 'v' || c == 't' || c == 'm' || c == 'q'

/-- Modelled from the spec: reading an entry of the Variable Table; a character outside
the identifier set reads 0. -/
def VariableTable.get (tab : VariableTable) (c : Char) : Value :=
  if c = 'r' then tab.r
  else if c = '~' then tab.sr
  else if c = 'n' then tab.n
  else if c = 'v' then tab.v
  else if c = 't' then tab.t
  else if c = 'm' then tab.m
  else if c = 'q' then tab.q
  else 0

/-- Modelled from the spec: writing an entry of the Variable Table; the value is stored as
a `Program::Value`, and a character outside the identifier set writes nothing. -/
def VariableTable.set (tab : VariableTable) (c : Char) (x : Nat) : VariableTable :=
  if c = 'r' then { tab with r := toValue x }
  else if c = '~' then { tab with sr := toValue x }
  else if c = 'n' then { tab with n := toValue x }
  else if c = 'v' then { tab with v := toValue x }
  else if c = 't' then { tab with t := toValue x }
  else if c = 'm' then { tab with m := toValue x }
  else if c = 'q' then { tab with q := toValue x }
  else tab

/-- Modelled from the spec: a `Program`, "an immutable compiled instruction sequence plus the
Variable Table it owns", with the instruction count of its last run. -/
structure Program where
  code : List Instr
  vars : VariableTable
  instructionCount : Nat
  deriving DecidableEq, Repr

/-- Modelled from the spec: `Program::Set(identifier, Value)`. -/
def Program.Set (p : Program) (c : Char) (x : Nat) : Program :=
  { p with vars := p.vars.set c x }

/-- Modelled from the spec: `Program::Get(identifier)`. -/
def Program.Get (p : Program) (c : Char) : Value := p.vars.get c

/-- Modelled from the spec: `Program::GetInstructionCount()`. -/
def Program.GetInstructionCount (p : Program) : Nat := p.instructionCount

/-- Modelled from the spec: the value of a binary instruction on unsigned 64-bit operands
`a` (first) and `b` (second); for division and modulo the second operand is the divisor.
Division and modulo "check the divisor: a zero divisor terminates execution immediately
with RuntimeError = division-by-zero (or modulo-by-zero)"; comparisons and the logical
operators yield 0 or 1. -/
def applyBinOp (op : BinOp) (a b : Value) : Except RuntimeError Value :=
  match op with
  | .mul => .ok ((a * b) % valueModulus)
  | .div => if b = 0 then .error .RE_DIVISION_BY_ZERO else .ok (a / b)
  | .mod => if b = 0 then .error .RE_MODULO_BY_ZERO else .ok (a % b)
  | .add => .ok ((a + b) % valueModulus)
  | .sub => .ok ((a + (valueModulus - b % valueModulus)) % valueModulus)
  | .shl => .ok ((a * 2 ^ b) % valueModulus)
  | .shr => .ok (a / 2 ^ b)
  | .lt => .ok (if a < b then 1 else 0)
  | .gt => .ok (if b < a then 1 else 0)
  | .le => .ok (if a ≤ b then 1 else 0)
  | .ge => .ok (if b ≤ a then 1 else 0)
  | .eq => .ok (if a = b then 1 else 0)
  | .ne => .ok (if a = b then 0 else 1)
  | .band => .ok (a &&& b)
  | .bxor => .ok (a ^^^ b)
  | .bor => .ok (a ||| b)
  | .land => .ok (if a ≠ 0 ∧ b ≠ 0 then 1 else 0)
  | .lor => .ok (if a ≠ 0 ∨ b ≠ 0 then 1 else 0)

/-- Modelled from the spec: the value of a unary instruction on an unsigned 64-bit
operand (two's-complement negation, bitwise complement). -/
def applyUnOp (op : UnOp) (a : Value) : Value :=
  match op with
  | .neg => (valueModulus - a % valueModulus) % valueModulus
  | .bnot => valueModulus - 1 - a % valueModulus

/-- Modelled from the spec: the outcome of the virtual machine's loop: the instruction
count reached and either the final operand stack or the fault that stopped execution. -/
structure ExecResult where
  count : Nat
  outcome : Except RuntimeError (List Value)

/-- Modelled from the spec: the virtual machine's loop of section 4.4. It "executes the
instruction sequence top-to-bottom against the live Variable Table, accumulating an
instruction counter"; when the counter exceeds the ceiling execution halts with
instruction-limit-exceeded, and a zero divisor halts it with the count accumulated so
far. A binary instruction takes the value on top of the stack as its first operand and the
value beneath it as its second, so that in the program of `r/2` the divisor is `r`: this is
the order under which, as section 8 states, that program runs for any nonzero `r` and
reports division-by-zero after `Set('r', 0)`. The spec fixes no ceiling value, so the
ceiling is an argument. -/
def execute (ceiling : Nat) (vars : VariableTable) :
    List Instr → List Value → Nat → ExecResult
  | [], stack, count => ⟨count, .ok stack⟩
  | i :: rest, stack, count =>
    if ceiling < count + 1 then ⟨count + 1, .error .RE_INSTRUCTION_LIMIT_EXCEEDED⟩
    else
      match i, stack with
      | .loadConst v, st => execute ceiling vars rest (v :: st) (count + 1)
      | .loadVar c, st => execute ceiling vars rest (vars.get c :: st) (count + 1)
      | .unary op, a :: st => execute ceiling vars rest (applyUnOp op a :: st) (count + 1)
      | .binary op, top :: beneath :: st =>
        match applyBinOp op top beneath with
        | .ok x => execute ceiling vars rest (x :: st) (count + 1)
        | .error e => ⟨count + 1, .error e⟩
      | .select, b :: a :: c :: st =>
        execute ceiling vars rest ((if c ≠ 0 then a else b) :: st) (count + 1)
      | _, st => execute ceiling vars rest st (count + 1)

/-- Modelled from the spec: what `Program::Run(result)` hands back: the program (with its
instruction count updated), the computed value and the run-time error. -/
structure RunResult where
  program : Program
  result : Value
  error : RuntimeError

/-- Modelled from the spec: `Program::Run`. On success the error is `RE_NONE` and the
result is the top-level computed value; on a fault the result is left at 0. The
Variable Table is only read. -/
def Program.Run (ceiling : Nat) (p : Program) : RunResult :=
  let r := execute ceiling p.vars p.code [] 0
  match r.outcome with
  | .ok (x :: _) => ⟨{ p with instructionCount := r.count }, x, .RE_NONE⟩
  | .ok [] => ⟨{ p with instructionCount := r.count }, 0, .RE_NONE⟩
  | .error e => ⟨{ p with instructionCount := r.count }, 0, e⟩

/-! ### Lexer -/

/-- Modelled from the spec: the tokens of section 4.1 (numeric literals, single-character
identifiers, operators, parentheses, and the two marks of the conditional). The tilde is a
token of its own because it names the sample-rate variable and is also bitwise not. -/
inductive Token
  | num (v : Value)
  | ident (c : Char)
  | tilde
  | op (o : BinOp)
  | lparen
  | rparen
  | question
  | colon
  deriving DecidableEq, Repr

/-- Modelled from the spec: a failed compilation's kind and zero-based source offset. -/
abbrev CompileFailure := CompileError × Nat

/-- Modelled from the spec: reads the digits of a numeric literal (decimal, reduced to 64
bits), returning the value, the remaining text and the number of characters read. -/
def lexNumber : List Char → Value → Nat → Value × List Char × Nat
  | [], acc, k => (acc, [], k)
  | c :: cs, acc, k =>
    if c.isDigit then lexNumber cs (toValue (acc * 10 + (c.toNat - 48))) (k + 1)
    else (acc, c :: cs, k)

/-- Modelled from the spec: the operators written with two characters. -/
def twoCharOp (a b : Char) : Option BinOp :=
  if a = '<' ∧ b = '<' then some .shl
  else if a = '>' ∧ b = '>' then some .shr
  else if a = '<' ∧ b = '=' then some .le
  else if a = '>' ∧ b = '=' then some .ge
  else if a = '=' ∧ b = '=' then some .eq
  else if a = '!' ∧ b = '=' then some .ne
  else if a = '&' ∧ b = '&' then some .land
  else if a = '|' ∧ b = '|' then some .lor
  else none

/-- Modelled from the spec: the tokens written with one character; letters are
identifiers (resolved by the parser), anything unknown is no token. -/
def oneCharToken (a : Char) : Option Token :=
  if a = '*' then some (.op .mul)
  else if a = '/' then some (.op .div)
  else if a = '%' then some (.op .mod)
  else if a = '+' then some (.op .add)
  else if a = '-' then some (.op .sub)
  else if a = '<' then some (.op .lt)
  else if a = '>' then some (.op .gt)
  else if a = '&' then some (.op .band)
  else if a = '^' then some (.op .bxor)
  else if a = '|' then some (.op .bor)
  else if a = '~' then some .tilde
  else if a = '(' then some .lparen
  else if a = ')' then some .rparen
  else if a = '?' then some .question
  else if a = ':' then some .colon
  else if a.isAlpha then some (.ident a)
  else none

/-- Modelled from the spec: the lexer of section 4.1, turning source text into tokens
tagged with their offsets. "Unknown characters are not silently dropped": they are a
lexical error at the offending offset. The first argument bounds the number of tokens
and is always given as the text length plus one. -/
def lexAux : Nat → Nat → List Char → Except CompileFailure (List (Token × Nat))
  | 0, pos, _ => .error (.CE_LEXICAL_ERROR, pos)
  | _ + 1, _, [] => .ok []
  | f + 1, pos, c :: cs =>
    if c.isDigit then
      match lexNumber (c :: cs) 0 0 with
      | (v, rest, k) =>
        match lexAux f (pos + k) rest with
        | .ok ts => .ok ((.num v, pos) :: ts)
        | .error e => .error e
    else
      match (match cs with
             | d :: ds => (twoCharOp c d).map (fun o => (o, ds))
             | [] => none) with
      | some (o, ds) =>
        match lexAux f (pos + 2) ds with
        | .ok ts => .ok ((.op o, pos) :: ts)
        | .error e => .error e
      | none =>
        match oneCharToken c with
        | some t =>
          match lexAux f (pos + 1) cs with
          | .ok ts => .ok ((t, pos) :: ts)
          | .error e => .error e
        | none => .error (.CE_LEXICAL_ERROR, pos)

/-- Modelled from the spec: the token stream of a source text. -/
def lex (text : List Char) : Except CompileFailure (List (Token × Nat)) :=
  lexAux (text.length + 1) 0 text

/-! ### Parser -/

/-- Modelled from the spec: the abstract syntax tree of section 4.2. -/
inductive Expr
  | const (v : Value)
  | var (c : Char)
  | unary (op : UnOp) (e : Expr)
  | binary (op : BinOp) (a b : Expr)
  | cond (c a b : Expr)
  deriving DecidableEq, Repr

/-- Modelled from the spec: operator precedence as listed in section 4.2, a larger number
binding tighter: multiplicative, additive, bit-shift, relational/equality, bitwise AND,
XOR, OR, logical AND, OR; the conditional is lowest (level 0) and the unary operators
are above all of these. -/
def binPrec : BinOp → Nat
  | .mul | .div | .mod => 9
  | .add | .sub => 8
  | .shl | .shr => 7
  | .lt | .gt | .le | .ge | .eq | .ne => 6
  | .band => 5
  | .bxor => 4
  | .bor => 3
  | .land => 2
  | .lor => 1

/-- Modelled from the spec: whether a token can begin an operand (used to tell the
bitwise-not tilde from the sample-rate variable of the same spelling). -/
def startsOperand : Token → Bool
  | .num _ => true
  | .ident _ => true
  | .tilde => true
  | .lparen => true
  | .op .sub => true
  | _ => false

/-- Modelled from the spec: the result of a parsing function. -/
abbrev ParseResult := Except CompileFailure (Expr × List (Token × Nat))

mutual
/-- Modelled from the spec: the parser of section 4.2 (precedence climbing): an expression
whose binary operators bind at least as tightly as `minPrec`. The first argument bounds
the nesting of calls, the second is the offset of end-of-input. -/
def parseExpr : Nat → Nat → Nat → List (Token × Nat) → ParseResult
  | 0, eoi, _, _ => .error (.CE_UNTERMINATED_EXPRESSION, eoi)
  | f + 1, eoi, minPrec, toks =>
    match parseUnary f eoi toks with
    | .error e => .error e
    | .ok (lhs, rest) => parseLoop f eoi minPrec lhs rest
termination_by structural f => f
/-- Modelled from the spec: the operator loop of precedence climbing: extends the
left operand with the binary operators, and at the lowest level the conditional, that
follow it. -/
def parseLoop : Nat → Nat → Nat → Expr → List (Token × Nat) → ParseResult
  | 0, _, _, lhs, toks => .ok (lhs, toks)
  | f + 1, eoi, minPrec, lhs, (.op o, p) :: rest =>
    if minPrec ≤ binPrec o then
      match parseExpr f eoi (binPrec o + 1) rest with
      | .error e => .error e
      | .ok (rhs, rest2) => parseLoop f eoi minPrec (.binary o lhs rhs) rest2
    else .ok (lhs, (.op o, p) :: rest)
  | f + 1, eoi, minPrec, lhs, (.question, p) :: rest =>
    if minPrec = 0 then
      match parseExpr f eoi 0 rest with
      | .error e => .error e
      | .ok (a, (.colon, _) :: rest3) =>
        match parseExpr f eoi 0 rest3 with
        | .error e => .error e
        | .ok (b, rest4) => .ok (.cond lhs a b, rest4)
      | .ok (_, (_, q) :: _) => .error (.CE_UNEXPECTED_TOKEN, q)
      | .ok (_, []) => .error (.CE_UNTERMINATED_EXPRESSION, eoi)
    else .ok (lhs, (.question, p) :: rest)
  | _ + 1, _, _, lhs, toks => .ok (lhs, toks)
termination_by structural f => f
/-- Modelled from the spec: an operand: a unary operator applied to an operand, a numeric
literal, a variable of the fixed set (any other identifier is the unknown-identifier
error), or a parenthesised expression. -/
def parseUnary : Nat → Nat → List (Token × Nat) → ParseResult
  | 0, eoi, _ => .error (.CE_UNTERMINATED_EXPRESSION, eoi)
  | _ + 1, eoi, [] => .error (.CE_UNTERMINATED_EXPRESSION, eoi)
  | _ + 1, _, (.num v, _) :: rest => .ok (.const v, rest)
  | _ + 1, _, (.ident c, p) :: rest =>
    if isVariableName c then .ok (.var c, rest) else .error (.CE_UNKNOWN_IDENTIFIER, p)
  | f + 1, eoi, (.op .sub, _) :: rest =>
    match parseUnary f eoi rest with
    | .error e => .error e
    | .ok (e, rest2) => .ok (.unary .neg e, rest2)
  | f + 1, eoi, (.tilde, _) :: rest =>
    match rest with
    | (t, _) :: _ =>
      if startsOperand t then
        match parseUnary f eoi rest with
        | .error e => .error e
        | .ok (e, rest2) => .ok (.unary .bnot e, rest2)
      else .ok (.var '~', rest)
    | [] => .ok (.var '~', rest)
  | f + 1, eoi, (.lparen, _) :: rest =>
    match parseExpr f eoi 0 rest with
    | .error e => .error e
    | .ok (e, (.rparen, _) :: rest2) => .ok (e, rest2)
    | .ok (_, (_, q) :: _) => .error (.CE_UNBALANCED_PARENTHESIS, q)
    | .ok (_, []) => .error (.CE_UNBALANCED_PARENTHESIS, eoi)
  | _ + 1, _, (_, p) :: _ => .error (.CE_UNEXPECTED_TOKEN, p)
termination_by structural f => f
end

/-- Modelled from the spec: parsing of a whole source text; "on the first malformed
construct, parsing stops and reports CompileError with the exact source offset of the
offending token". -/
def parseText (text : List Char) : Except CompileFailure Expr :=
  match lex text with
  | .error e => .error e
  | .ok toks =>
    match parseExpr (4 * toks.length + 4) text.length 0 toks with
    | .error e => .error e
    | .ok (e, []) => .ok e
    | .ok (_, (.rparen, p) :: _) => .error (.CE_UNBALANCED_PARENTHESIS, p)
    | .ok (_, (_, p) :: _) => .error (.CE_UNEXPECTED_TOKEN, p)

/-! ### Compiler -/

/-- Modelled from the spec: the lowering of section 4.3 into "a flat sequence of primitive
operations"; the conditional "lowers to an unconditional select" over its three evaluated
operands. -/
def lower : Expr → List Instr
  | .const v => [.loadConst v]
  | .var c => [.loadVar c]
  | .unary op e => lower e ++ [.unary op]
  | .binary op a b => lower a ++ lower b ++ [.binary op]
  | .cond c a b => lower c ++ lower a ++ lower b ++ [.select]

/-- Modelled from the spec: what `Program::Compile(text, error, errorPosition)` hands back:
the program pointer (none on failure: "a failed compile simply yields no Program") and the
two out-parameters. -/
structure CompileResult where
  program : Option Program
  error : CompileError
  errorPosition : Int
  deriving DecidableEq, Repr

/-- Modelled from the spec: `Program::Compile`. "Compilation never fails for a tree the
Parser accepted; compile failure is strictly a Parser-detected condition." -/
def Program.Compile (text : String) : CompileResult :=
  match parseText text.toList with
  | .ok e => ⟨some ⟨lower e, VariableTable.zero, 0⟩, .CE_NONE, 0⟩
  | .error (kind, pos) => ⟨none, kind, pos⟩



/-! ## The plug-in (`Evaluator.cpp`, `Interface.cpp`) -/

/-- The status kinds of `IMidiMsg::StatusMsg()` (the MIDI library's enumeration); the switch
of `ProcessDoubleReplacing` distinguishes `kNoteOn`, `kNoteOff` and everything else. -/
inductive EStatusMsg
  | kNone
  | kNoteOff
  | kNoteOn
  | kPolyAftertouch
  | kControlChange
  | kProgramChange
  | kChannelAftertouch
  | kPitchWheel
  deriving DecidableEq, Repr

/-- An `IMidiMsg` as `Evaluator.cpp` reads it: its frame offset `mOffset`, its status and
its two data bytes. -/
structure IMidiMsg where
  mOffset : Int
  status : EStatusMsg
  mData1 : Fin 256
  mData2 : Fin 256
  deriving DecidableEq, Repr

/-- The accessor `IMidiMsg::StatusMsg()`. -/
def IMidiMsg.StatusMsg (msg : IMidiMsg) : EStatusMsg := msg.status

/-- The accessor `IMidiMsg::NoteNumber()` of a note-on or note-off message: the first data
byte. -/
def IMidiMsg.NoteNumber (msg : IMidiMsg) : Nat := msg.mData1.val

/-- The accessor `IMidiMsg::Velocity()` of a note-on or note-off message: the second data
byte. -/
def IMidiMsg.Velocity (msg : IMidiMsg) : Nat := msg.mData2.val

/-- The parameter indices that `OnParamChange` switches on; `other` stands for every index
that reaches its `default` branch. -/
inductive EParams
  | kGain
  | kBitDepth
  | kExpression
  | other
  deriving DecidableEq, Repr

/-- The signature of `Program::Compile` as `Evaluator.cpp` calls it. -/
abbrev Compiler := String → CompileResult

/-- The state of the plug-in: the members of `Evaluator` that the two source files read and
write, the text held by the interface's text edit (`Interface::GetProgramText`), and the
host-side values of the gain and bit-depth parameters. Real numbers are rationals. -/
structure Evaluator where
  mProgram : Option Program
  mProgramIsValid : Bool
  mTick : Value
  mNotes : List IMidiMsg
  mMidiQueue : List IMidiMsg
  mGain : ℚ
  mBitDepth : Nat
  programText : String
  gainParam : ℚ
  bitDepthParam : Nat
  blockSize : Nat

/-- The plug-in as the constructors of `Evaluator` and `Interface` leave it: no program,
gain 1, bit depth 15, parameters at their defaults (50 %, 15 bits), the text edit showing
`t*128`. The members the constructor does not initialise (`mTick`, `mProgramIsValid`) are
taken as 0 and false; `Reset` assigns both before they are read. The host's block size is
taken as 512. -/
def Evaluator.construct : Evaluator :=
  { mProgram := none, mProgramIsValid := false, mTick := 0, mNotes := [], mMidiQueue := [],
    mGain := 1, mBitDepth := 15, programText := "t*128", gainParam := 50,
    bitDepthParam := 15, blockSize := 512 }

/-- The two assignments `mProgram->Set('n', 0); mProgram->Set('v', 0);` that end the
`kExpression` case of `OnParamChange`. -/
def initNoteVars (p : Program) : Program := (p.Set 'n' 0).Set 'v' 0

/-- The method `Evaluator::OnParamChange`. In the `kExpression` case the text of the interface
is compiled; when the compiler reports an error the program is replaced by the one compiled
from `r/2`; then the tick and the variables `n` and `v` are zeroed. (The console text is
not modelled.) -/
def Evaluator.OnParamChange (compile : Compiler) (paramIdx : EParams) (s : Evaluator) :
    Evaluator :=
  match paramIdx with
  | .kGain => { s with mGain := s.gainParam / 100 }
  | .kBitDepth => { s with mBitDepth := s.bitDepthParam }
  | .kExpression =>
    let first := compile s.programText
    let valid : Bool := first.error == CompileError.CE_NONE
    let program := if valid then first.program else (compile "r/2").program
    { s with
      mProgramIsValid := valid
      mTick := 0
      mProgram := program.map initNoteVars }
  | .other => s

/-- The method `Evaluator::Reset`: the program is deleted, recompiled through
`OnParamChange(kExpression)`, the MIDI queue is resized to the block size and the held notes
are cleared. -/
def Evaluator.Reset (compile : Compiler) (s : Evaluator) : Evaluator :=
  let s1 := Evaluator.OnParamChange compile .kExpression { s with mProgram := none }
  { s1 with mMidiQueue := s1.mMidiQueue.take s1.blockSize, mNotes := [] }

/-- The body of the note-off loop of `ProcessDoubleReplacing` on the notes in the order the
reverse iterator visits them: the first visited note whose number equals the pitch is erased
and the loop ends. -/
def eraseFirstOfPitch (pitch : Nat) : List IMidiMsg → List IMidiMsg
  | [] => []
  | x :: xs => if pitch = x.NoteNumber then xs else x :: eraseFirstOfPitch pitch xs

/-- The note-off loop of `ProcessDoubleReplacing` (`crbegin` to `crend`): the held notes are
visited from the back. -/
def eraseNoteOff (pitch : Nat) (notes : List IMidiMsg) : List IMidiMsg :=
  (eraseFirstOfPitch pitch notes.reverse).reverse

/-- The switch of `ProcessDoubleReplacing` on one MIDI message taken from the queue. -/
def handleMidiMsg (msg : IMidiMsg) (s : Evaluator) : Evaluator :=
  match msg.StatusMsg with
  | .kNoteOn =>
    { s with
      mTick := if s.mNotes.isEmpty then 0 else s.mTick
      mNotes := s.mNotes ++ [msg]
      mProgram := s.mProgram.map (fun p => (p.Set 'n' msg.NoteNumber).Set 'v' msg.Velocity) }
  | .kNoteOff =>
    let notes := eraseNoteOff msg.NoteNumber s.mNotes
    match notes.getLast? with
    | none =>
      { s with
        mNotes := notes
        mProgram := s.mProgram.map (fun p => (p.Set 'n' 0).Set 'v' 0) }
    | some back =>
      { s with
        mNotes := notes
        mProgram := s.mProgram.map (fun p => (p.Set 'n' back.NoteNumber).Set 'v' back.Velocity) }
  | _ => s

/-- The `while (!mMidiQueue.Empty())` loop of one frame: the messages at the front of the
queue whose offset is not beyond the frame are handled and removed. -/
def drainMidiQueue (frame : Int) : List IMidiMsg → Evaluator → Evaluator
  | [], s => { s with mMidiQueue := [] }
  | msg :: rest, s =>
    if msg.mOffset > frame then { s with mMidiQueue := msg :: rest }
    else drainMidiQueue frame rest (handleMidiMsg msg s)

/-- Rounding of a rational to the nearest integer, ties to the even one: the rounding of
the significand in the default rounding mode of double-precision arithmetic. -/
def roundHalfEven (x : ℚ) : ℤ :=
  if x - ⌊x⌋ < 1 / 2 then ⌊x⌋
  else if 1 / 2 < x - ⌊x⌋ then ⌊x⌋ + 1
  else if ⌊x⌋ % 2 = 0 then ⌊x⌋ else ⌊x⌋ + 1

/-- The double nearest to a positive rational `x` (round to nearest, ties to even, 53-bit
significand): with `e` the binary exponent of `x` (`2 ^ e ≤ x < 2 ^ (e + 1)`), `x` is
rounded to a multiple of `2 ^ (e - 52)`. Exponent overflow and subnormal numbers are not
modelled, and only positive values occur in the source, so the rest is sent to 0. -/
def roundDouble (x : ℚ) : ℚ :=
  if 0 < x then (roundHalfEven (x * 2 ^ (52 - Int.log 2 x)) : ℚ) * 2 ^ (Int.log 2 x - 52)
  else 0

/-- The division `a / b` of two doubles: the exact quotient rounded to the nearest
double. -/
def divDouble (a b : ℚ) : ℚ := roundDouble (a / b)

/-- The conversion `(uint64_t)x` of a double: truncation, defined for values from 0 to
below `2 ^ 64`. -/
def doubleToUInt64 (x : ℚ) : Option Nat :=
  if 0 ≤ x ∧ x < 2 ^ 64 then some ⌊x⌋.toNat else none

/-- The values `ProcessDoubleReplacing` derives from the host at the top of a block: the
sample rate converted to a `Program::Value`, and the two divisors `mdenom` and `qdenom`. -/
structure HostInfo where
  sampleRate : Value
  mdenom : Nat
  qdenom : Nat

/-- The first lines of `ProcessDoubleReplacing`, for the doubles `GetSampleRate()` and
`GetTempo()`: `mdenom = (uint64_t)(GetSampleRate()/1000)`,
`qdenom = (uint64_t)(GetSampleRate()/(GetTempo()/60.0))/128` and
`(Program::Value)GetSampleRate()`, the divisions in double-precision arithmetic. There is
no result when a conversion is undefined. -/
def hostOf (sampleRate tempo : ℚ) : Option HostInfo :=
  match doubleToUInt64 (divDouble sampleRate 1000),
    doubleToUInt64 (divDouble sampleRate (divDouble tempo 60)),
    doubleToUInt64 sampleRate with
  | some m, some q, some rate => some ⟨rate, m, q / 128⟩
  | _, _, _ => none

/-- The quantisation range `1 << mBitDepth` of `ProcessDoubleReplacing` (the shift is an
`int` shift; it equals `2 ^ mBitDepth` for bit depths up to 30). -/
def rangeOf (bitDepth : Nat) : Value := toValue (1 <<< bitDepth)

/-- The three lines `++mTick; Set('t', mTick); Set('m', mTick/mdenom); Set('q', mTick/qdenom)`
of a frame. The tick is a 64-bit counter. (A divisor of 0 is a division fault in the
source; the model's quotient is 0 there.) -/
def tickProgram (host : HostInfo) (s : Evaluator) : Evaluator :=
  let tick := toValue (s.mTick + 1)
  { s with
    mTick := tick
    mProgram := s.mProgram.map
      (fun p => ((p.Set 't' tick).Set 'm' (tick / host.mdenom)).Set 'q' (tick / host.qdenom)) }

/-- The sample `mGain * (-1.0 + 2.0*((double)(result%range)/(range-1)))` of a frame, in exact
rational arithmetic. -/
def evalSample (gain : ℚ) (range : Value) (result : Value) : ℚ :=
  gain * (-1 + 2 * (((result % range : Nat) : ℚ) / ((range - 1 : Nat) : ℚ)))

/-- What one frame of `ProcessDoubleReplacing` produces: the state after it, the two output
samples, and the run-time error of the frame. -/
structure FrameResult where
  state : Evaluator
  out1 : ℚ
  out2 : ℚ
  error : RuntimeError

/-- The end of a frame: the program is run and the scaled result is added to both inputs.
A null `mProgram` is a null-pointer dereference in the source; the model yields no
result there. -/
def runFrame (ceiling : Nat) (range : Value) (in1 in2 : ℚ) (s : Evaluator) :
    Option FrameResult :=
  match s.mProgram with
  | none => none
  | some p =>
    let r := p.Run ceiling
    let sample := evalSample s.mGain range r.result
    some ⟨{ s with mProgram := some r.program }, in1 + sample, in2 + sample, r.error⟩

/-- One iteration of the frame loop of `ProcessDoubleReplacing`: drain the MIDI queue up to
this frame, advance the tick and the time variables, run the program, write the outputs. -/
def processFrame (ceiling : Nat) (range : Value) (host : HostInfo) (frame : Int) (in1 in2 : ℚ)
    (s : Evaluator) : Option FrameResult :=
  runFrame ceiling range in1 in2 (tickProgram host (drainMidiQueue frame s.mMidiQueue s))

/-- The frame loop of `ProcessDoubleReplacing` over the input frames, from frame index
`frame` on; returns the final state and the output frames. -/
def processFrames (ceiling : Nat) (range : Value) (host : HostInfo) :
    Int → List (ℚ × ℚ) → Evaluator → Option (Evaluator × List (ℚ × ℚ))
  | _, [], s => some (s, [])
  | frame, (in1, in2) :: rest, s =>
    match processFrame ceiling range host frame in1 in2 s with
    | none => none
    | some r =>
      match processFrames ceiling range host (frame + 1) rest r.state with
      | none => none
      | some (s2, outs) => some (s2, (r.out1, r.out2) :: outs)

/-- The body of `Evaluator::ProcessDoubleReplacing` after its host values are computed, on
a block of stereo input frames: the range is taken from the bit depth, the variables `r`
and `~` are set, the frames are processed, and the queue is flushed (the offsets of the
messages left in it are moved back by the block length). The console text is not
modelled. -/
def processBlock (ceiling : Nat) (host : HostInfo) (inputs : List (ℚ × ℚ))
    (s : Evaluator) : Option (Evaluator × List (ℚ × ℚ)) :=
  let range := rangeOf s.mBitDepth
  match s.mProgram with
  | none => none
  | some p =>
    let s0 := { s with mProgram := some ((p.Set 'r' range).Set '~' host.sampleRate) }
    match processFrames ceiling range host 0 inputs s0 with
    | none => none
    | some (s1, outs) =>
      some ({ s1 with
              mMidiQueue := s1.mMidiQueue.map
                (fun msg => { msg with mOffset := msg.mOffset - inputs.length }) }, outs)

/-- The method `Evaluator::ProcessDoubleReplacing` for a host whose sample rate and tempo
are the given doubles. -/
def Evaluator.ProcessDoubleReplacing (ceiling : Nat) (sampleRate tempo : ℚ)
    (inputs : List (ℚ × ℚ)) (s : Evaluator) : Option (Evaluator × List (ℚ × ℚ)) :=
  match hostOf sampleRate tempo with
  | none => none
  | some host => processBlock ceiling host inputs s

/-- The method `Evaluator::ProcessMidiMsg`: the message is added to the queue. -/
def Evaluator.ProcessMidiMsg (msg : IMidiMsg) (s : Evaluator) : Evaluator :=
  { s with mMidiQueue := s.mMidiQueue ++ [msg] }

/-- The method `Interface::SetProgramText`, through `ITextEdit::TextFromTextEntry`: the text
is stored and the plug-in is told that its expression parameter changed. -/
def SetProgramText (compile : Compiler) (programText : String) (s : Evaluator) : Evaluator :=
  Evaluator.OnParamChange compile .kExpression { s with programText := programText }

/-! ### Persisted state -/

/-- A `ByteChunk`: a sequence of bytes. A character of a C string occupies one byte and is
stored as its code. -/
abbrev ByteChunk := List Nat

/-- The four bytes of a 32-bit integer, least significant first, as `ByteChunk::Put` stores
an `int`. -/
def encodeInt32 (n : Nat) : List Nat :=
  [n % 256, n / 256 % 256, n / 65536 % 256, n / 16777216 % 256]

/-- The signed 32-bit integer held by four bytes, least significant first. -/
def decodeInt32 (b0 b1 b2 b3 : Nat) : Int :=
  let u := b0 + 256 * b1 + 65536 * b2 + 16777216 * b3
  if u < 2147483648 then (u : Int) else (u : Int) - 4294967296

/-- The method `ByteChunk::PutStr`: appends the length of the string as a 32-bit integer and
then its characters ("a length-prefixed string"). -/
def ByteChunk.PutStr (chunk : ByteChunk) (str : String) : ByteChunk :=
  chunk ++ encodeInt32 str.length ++ str.toList.map Char.toNat

/-- The method `ByteChunk::GetStr`: reads a length-prefixed string at `startPos`. When the
four bytes of the length cannot be read the string is left as given and -1 is returned;
otherwise the position after the string is returned, and the string is set to the
characters read when they lie inside the chunk and the length is positive. -/
def ByteChunk.GetStr (chunk : ByteChunk) (str : String) (startPos : Int) : String × Int :=
  if startPos < 0 ∨ (chunk.length : Int) < startPos + 4 then (str, -1)
  else
    match chunk.drop startPos.toNat with
    | b0 :: b1 :: b2 :: b3 :: rest =>
      let len := decodeInt32 b0 b1 b2 b3
      let strEndPos := startPos + 4 + len
      if strEndPos ≤ (chunk.length : Int) ∧ 0 < len then
        (String.mk ((rest.take len.toNat).map Char.ofNat), strEndPos)
      else (str, strEndPos)
    | _ => (str, -1)

/-- The method `Evaluator::SerializeState`: the program text is put into the chunk, then
`IPlugBase::SerializeParams` appends the bytes of the parameter values (`paramBytes`). -/
def Evaluator.SerializeState (paramBytes : List Nat) (chunk : ByteChunk) (s : Evaluator) :
    ByteChunk :=
  chunk.PutStr s.programText ++ paramBytes

/-- What `Evaluator::UnserializeState` does: the state after `SetProgramText`, and the
position it passes on to `IPlugBase::UnserializeParams`. -/
structure UnserializeResult where
  state : Evaluator
  paramsPos : Int

/-- The method `Evaluator::UnserializeState`: the expression is read from the chunk (starting
from the empty string in case the read fails), handed to `SetProgramText`, and the position
reached is given to parameter deserialisation. -/
def Evaluator.UnserializeState (compile : Compiler) (chunk : ByteChunk) (startPos : Int)
    (s : Evaluator) : UnserializeResult :=
  let r := chunk.GetStr "" startPos
  ⟨SetProgramText compile r.1 s, r.2⟩


/-! ### Sequences of events -/

/-- The run of the program in a frame, as a change of state: the program keeps its
variables and records its instruction count. -/
def runProgram (ceiling : Nat) (s : Evaluator) : Evaluator :=
  { s with mProgram := s.mProgram.map (fun p => (p.Run ceiling).program) }

/-- What can happen to the plug-in between and inside audio blocks: a MIDI message is
handled by the switch of a frame, a sample is processed (tick, variables, run), or the
program text is set and recompiled. -/
inductive Event
  | midi (msg : IMidiMsg)
  | sample
  | recompile (text : String)
  deriving DecidableEq, Repr

/-- The effect of one event on the plug-in. -/
def stepEvent (compile : Compiler) (ceiling : Nat) (host : HostInfo) :
    Event → Evaluator → Evaluator
  | .midi msg, s => handleMidiMsg msg s
  | .sample, s => runProgram ceiling (tickProgram host s)
  | .recompile text, s => SetProgramText compile text s

/-- The effect of a sequence of events, first event first. -/
def runEvents (compile : Compiler) (ceiling : Nat) (host : HostInfo) :
    List Event → Evaluator → Evaluator
  | [], s => s
  | e :: es, s => runEvents compile ceiling host es (stepEvent compile ceiling host e s)

/-- The value of `t` that `Run` sees when the next sample is processed in state `s`: the
variable `t` of the program after the tick lines of the frame. -/
def tickSeen (host : HostInfo) (s : Evaluator) : Option Value :=
  (tickProgram host s).mProgram.map (fun p => p.Get 't')

/-- Whether an event, arriving in state `s`, restarts the tick in the words of the
specification: a recompilation, or a note-on handled while no note is held. -/
def isRestart (s : Evaluator) : Event → Bool
  | .recompile _ => true
  | .midi msg => decide (msg.StatusMsg = EStatusMsg.kNoteOn) && s.mNotes.isEmpty
  | .sample => false

/-- Whether no event of a sequence, started in state `s`, restarts the tick. -/
def noRestart (compile : Compiler) (ceiling : Nat) (host : HostInfo) :
    Evaluator → List Event → Bool
  | _, [] => true
  | s, e :: es =>
    !isRestart s e && noRestart compile ceiling host (stepEvent compile ceiling host e s) es

/-- The number of samples processed in a sequence of events. -/
def countSamples : List Event → Nat
  | [] => 0
  | .sample :: es => countSamples es + 1
  | _ :: es => countSamples es

/-- The operations of the plug-in that touch the held notes and the variables `n` and
`v`: handling a note-on, handling a note-off, recompiling, and `Reset`. -/
inductive Operation
  | noteOn (offset : Int) (number velocity : Fin 256)
  | noteOff (offset : Int) (number velocity : Fin 256)
  | recompile
  | reset
  deriving DecidableEq, Repr

/-- The effect of one operation on the plug-in. -/
def applyOperation (compile : Compiler) : Operation → Evaluator → Evaluator
  | .noteOn offset number velocity, s => handleMidiMsg ⟨offset, .kNoteOn, number, velocity⟩ s
  | .noteOff offset number velocity, s => handleMidiMsg ⟨offset, .kNoteOff, number, velocity⟩ s
  | .recompile, s => s.OnParamChange compile .kExpression
  | .reset, s => s.Reset compile

/-- The effect of a sequence of operations, first operation first. -/
def runOperations (compile : Compiler) : List Operation → Evaluator → Evaluator
  | [], s => s
  | o :: os, s => runOperations compile os (applyOperation compile o s)

/-- The note number the specification gives to `n`: that of the most recently started note
still held (the last element of the held notes), 0 when none is held. -/
def heldNumber (notes : List IMidiMsg) : Nat :=
  match notes.getLast? with
  | none => 0
  | some back => back.NoteNumber

/-- The velocity the specification gives to `v`: that of the most recently started note
still held, 0 when none is held. -/
def heldVelocity (notes : List IMidiMsg) : Nat :=
  match notes.getLast? with
  | none => 0
  | some back => back.Velocity

/-- Whether the last operation of a sequence is a recompilation. -/
def endsWithRecompile (ops : List Operation) : Bool :=
  match ops.getLast? with
  | some .recompile => true
  | _ => false

/-! ### Concrete data for the checks below -/

/-- A plug-in whose text edit holds the malformed text `t*`. -/
def malformedTextPlug : Evaluator := { Evaluator.construct with programText := "t*" }

/-- A note-on for note 60 with velocity 100. -/
def noteOn60 : IMidiMsg := ⟨0, .kNoteOn, 60, 100⟩

/-- A note-on for note 62 with velocity 90. -/
def noteOn62 : IMidiMsg := ⟨0, .kNoteOn, 62, 90⟩

/-- A note-off for note 60. -/
def noteOff60 : IMidiMsg := ⟨0, .kNoteOff, 60, 0⟩

/-- Host values for 44100 Hz at 120 beats per minute: 44 samples per millisecond and
172 samples per 128th of a beat. -/
def hostCD : HostInfo := ⟨44100, 44, 172⟩

/-- The plug-in after construction and `Reset`, with the modelled compiler. -/
def freshPlug : Evaluator := Evaluator.construct.Reset Program.Compile

/-! ## Properties -/

/-! ### Auxiliary facts -/

theorem toValue_lt (x : Nat) : toValue x < valueModulus :=
  Nat.mod_lt _ (by unfold valueModulus; positivity)

theorem toValue_of_lt {x : Nat} (h : x < valueModulus) : toValue x = x :=
  Nat.mod_eq_of_lt h

theorem toValue_toValue (x : Nat) : toValue (toValue x) = toValue x :=
  toValue_of_lt (toValue_lt x)

theorem toValue_succ_toValue (x : Nat) : toValue (toValue x + 1) = toValue (x + 1) := by
  unfold toValue
  exact (Nat.add_mod x 1 valueModulus).symm ▸ by
    rw [Nat.add_mod (x % valueModulus) 1 valueModulus, Nat.mod_mod]

theorem initNoteVars_code (p : Program) : (initNoteVars p).code = p.code := rfl

theorem get_n_set_n_set_v (p : Program) (a b : Nat) :
    ((p.Set 'n' a).Set 'v' b).Get 'n' = toValue a := by
  simp [Program.Set, Program.Get, VariableTable.set, VariableTable.get]

theorem get_v_set_n_set_v (p : Program) (a b : Nat) :
    ((p.Set 'n' a).Set 'v' b).Get 'v' = toValue b := by
  simp [Program.Set, Program.Get, VariableTable.set, VariableTable.get]

theorem get_t_after_tick (p : Program) (a b c : Nat) :
    (((p.Set 't' a).Set 'm' b).Set 'q' c).Get 't' = toValue a := by
  simp [Program.Set, Program.Get, VariableTable.set, VariableTable.get]

/-! ### Recompilation (C1) -/

/-- C1. After `OnParamChange(kExpression)`, provided `Compile("r/2")` reports `CE_NONE`: the
validity flag is true exactly when the compiler reported `CE_NONE` for the text; the plug-in
holds the program compiled from the text in that case and the one compiled from `r/2`
otherwise (each with `n` and `v` zeroed, the code untouched); so the program it holds always
comes from a compilation that reported `CE_NONE`, and it is a real program whenever
successful compilations return one. -/
theorem onParamChange_holds_compiled_program (compile : Compiler) (s : Evaluator)
    (hfallback : (compile "r/2").error = CompileError.CE_NONE) :
    ((s.OnParamChange compile .kExpression).mProgramIsValid = true ↔
        (compile s.programText).error = CompileError.CE_NONE) ∧
      ((compile s.programText).error = CompileError.CE_NONE →
        (s.OnParamChange compile .kExpression).mProgram =
            (compile s.programText).program.map initNoteVars ∧
          (s.OnParamChange compile .kExpression).mProgram.map Program.code =
            (compile s.programText).program.map Program.code) ∧
      ((compile s.programText).error ≠ CompileError.CE_NONE →
        (s.OnParamChange compile .kExpression).mProgram =
            (compile "r/2").program.map initNoteVars ∧
          (s.OnParamChange compile .kExpression).mProgram.map Program.code =
            (compile "r/2").program.map Program.code) ∧
      (∃ text, (compile text).error = CompileError.CE_NONE ∧
        (s.OnParamChange compile .kExpression).mProgram =
          (compile text).program.map initNoteVars) ∧
      ((∀ text, (compile text).error = CompileError.CE_NONE → (compile text).program ≠ none) →
        (s.OnParamChange compile .kExpression).mProgram ≠ none) := by
  by_cases h : (compile s.programText).error = CompileError.CE_NONE
  · have hmap : ∀ o : Option Program, (o.map initNoteVars).map Program.code = o.map Program.code := by
      intro o; cases o <;> rfl
    refine ⟨?_, ?_, ?_, ⟨s.programText, h, ?_⟩, ?_⟩
    · simp [Evaluator.OnParamChange, h]
    · intro _
      simp [Evaluator.OnParamChange, h, hmap]
    · intro hne; exact absurd h hne
    · simp [Evaluator.OnParamChange, h]
    · intro hall
      have := hall _ h
      simp [Evaluator.OnParamChange, h]
      exact this
  · have hmap : ∀ o : Option Program, (o.map initNoteVars).map Program.code = o.map Program.code := by
      intro o; cases o <;> rfl
    refine ⟨?_, ?_, ?_, ⟨"r/2", hfallback, ?_⟩, ?_⟩
    · simp [Evaluator.OnParamChange, h]
    · intro he; exact absurd he h
    · intro _
      simp [Evaluator.OnParamChange, h, hmap]
    · simp [Evaluator.OnParamChange, h]
    · intro hall
      have := hall _ hfallback
      simp [Evaluator.OnParamChange, h]
      exact this

/-! ### The model of the core on the examples of the specification -/

theorem set_then_get (p : Program) (c : Char) (x : Nat) (hc : isVariableName c = true) :
    (p.Set c x).Get c = toValue x := by
  simp only [isVariableName, Bool.or_eq_true, beq_iff_eq] at hc
  rcases hc with (((((h | h) | h) | h) | h) | h) | h <;> subst h <;>
    simp [Program.Set, Program.Get, VariableTable.set, VariableTable.get]

theorem compile_t_times_128 :
    (Program.Compile "t*128").error = CompileError.CE_NONE ∧
      (Program.Compile "t*128").program.map
          (fun p => (((p.Set 't' 5).Run 1024).result, ((p.Set 't' 5).Run 1024).error)) =
        some (640, RuntimeError.RE_NONE) := by
  constructor <;> decide

theorem compile_trailing_operator :
    Program.Compile "t*" = ⟨none, CompileError.CE_UNTERMINATED_EXPRESSION, 2⟩ := by
  rfl

theorem compile_unknown_identifier :
    Program.Compile "z+1" = ⟨none, CompileError.CE_UNKNOWN_IDENTIFIER, 0⟩ := by
  rfl

theorem compile_conditional :
    (Program.Compile "t&16?t*2:t/2").program.map Program.code =
      some [.loadVar 't', .loadConst 16, .binary .band, .loadVar 't', .loadConst 2,
        .binary .mul, .loadVar 't', .loadConst 2, .binary .div, .select] := by
  rfl

/-- C1, at the malformed text `t*`: the fallback compiles, the flag is false and the
program held is the one compiled from `r/2`. -/
theorem onParamChange_holds_compiled_program_witness :
    (Program.Compile "r/2").error = CompileError.CE_NONE ∧
      ((malformedTextPlug.OnParamChange Program.Compile .kExpression).mProgramIsValid = true ↔
        (Program.Compile malformedTextPlug.programText).error = CompileError.CE_NONE) ∧
      (malformedTextPlug.OnParamChange Program.Compile .kExpression).mProgram.map Program.code =
        (Program.Compile "r/2").program.map Program.code :=
  ⟨by decide,
    (onParamChange_holds_compiled_program Program.Compile malformedTextPlug (by decide)).1,
    ((onParamChange_holds_compiled_program Program.Compile malformedTextPlug (by decide)).2.2.1
      (by decide)).2⟩

/-! ### Note-off (C9) -/

theorem eraseFirstOfPitch_absent (pitch : Nat) (l : List IMidiMsg)
    (h : ∀ x ∈ l, x.NoteNumber ≠ pitch) : eraseFirstOfPitch pitch l = l := by
  induction l with
  | nil => rfl
  | cons x xs ih =>
    have hx : ¬ pitch = x.NoteNumber := fun e => h x (List.mem_cons_self _ _) e.symm
    simp only [eraseFirstOfPitch, hx, if_false]
    rw [ih (fun y hy => h y (List.mem_cons_of_mem _ hy))]

theorem eraseFirstOfPitch_present (pitch : Nat) (l : List IMidiMsg)
    (h : ∃ x ∈ l, x.NoteNumber = pitch) :
    ∃ front m back, l = front ++ m :: back ∧ m.NoteNumber = pitch ∧
      (∀ x ∈ front, x.NoteNumber ≠ pitch) ∧ eraseFirstOfPitch pitch l = front ++ back := by
  induction l with
  | nil => obtain ⟨x, hx, _⟩ := h; cases hx
  | cons y ys ih =>
    by_cases hy : pitch = y.NoteNumber
    · refine ⟨[], y, ys, rfl, hy.symm, ?_, ?_⟩
      · intro x hx; cases hx
      · simp [eraseFirstOfPitch, hy]
    · have hrest : ∃ x ∈ ys, x.NoteNumber = pitch := by
        obtain ⟨x, hx, hp⟩ := h
        rcases List.mem_cons.mp hx with rfl | hx
        · exact absurd hp.symm hy
        · exact ⟨x, hx, hp⟩
      obtain ⟨front, m, back, hl, hm, hfront, herase⟩ := ih hrest
      refine ⟨y :: front, m, back, by rw [hl]; rfl, hm, ?_, ?_⟩
      · intro x hx
        rcases List.mem_cons.mp hx with rfl | hx
        · exact fun e => hy e.symm
        · exact hfront x hx
      · simp [eraseFirstOfPitch, hy, herase]

theorem handleMidiMsg_noteOff_notes (msg : IMidiMsg) (s : Evaluator)
    (hOff : msg.StatusMsg = EStatusMsg.kNoteOff) :
    (handleMidiMsg msg s).mNotes = eraseNoteOff msg.NoteNumber s.mNotes := by
  unfold handleMidiMsg
  rw [hOff]
  dsimp only
  split <;> rfl

/-- C9. Handling a note-off of pitch `p`: when some held note has pitch `p`, the held notes
afterwards are those before with exactly the last element of pitch `p` removed (everything
before and after it kept in order); when none has, the held notes are unchanged. -/
theorem noteOff_removes_last_of_pitch (msg : IMidiMsg) (s : Evaluator)
    (hOff : msg.StatusMsg = EStatusMsg.kNoteOff) :
    ((∃ x ∈ s.mNotes, x.NoteNumber = msg.NoteNumber) →
        ∃ before m after, s.mNotes = before ++ m :: after ∧ m.NoteNumber = msg.NoteNumber ∧
          (∀ x ∈ after, x.NoteNumber ≠ msg.NoteNumber) ∧
          (handleMidiMsg msg s).mNotes = before ++ after) ∧
      ((∀ x ∈ s.mNotes, x.NoteNumber ≠ msg.NoteNumber) →
        (handleMidiMsg msg s).mNotes = s.mNotes) := by
  rw [handleMidiMsg_noteOff_notes msg s hOff]
  constructor
  · intro h
    have hrev : ∃ x ∈ s.mNotes.reverse, x.NoteNumber = msg.NoteNumber := by
      obtain ⟨x, hx, hp⟩ := h
      exact ⟨x, List.mem_reverse.mpr hx, hp⟩
    obtain ⟨front, m, back, hl, hm, hfront, herase⟩ :=
      eraseFirstOfPitch_present msg.NoteNumber s.mNotes.reverse hrev
    refine ⟨back.reverse, m, front.reverse, ?_, hm, ?_, ?_⟩
    · have := congrArg List.reverse hl
      simpa using this
    · intro x hx
      exact hfront x (List.mem_reverse.mp hx)
    · unfold eraseNoteOff
      rw [herase]
      simp
  · intro h
    unfold eraseNoteOff
    rw [eraseFirstOfPitch_absent msg.NoteNumber s.mNotes.reverse
      (fun x hx => h x (List.mem_reverse.mp hx))]
    simp

/-- C9, with notes 60, 62, 60 held and a note-off for 60: the second 60 goes, the first
stays. -/
theorem noteOff_removes_last_of_pitch_witness :
    noteOff60.StatusMsg = EStatusMsg.kNoteOff ∧
      ((∃ x ∈ [noteOn60, noteOn62, noteOn60], x.NoteNumber = noteOff60.NoteNumber) →
        ∃ before m after, [noteOn60, noteOn62, noteOn60] = before ++ m :: after ∧
          m.NoteNumber = noteOff60.NoteNumber ∧
          (∀ x ∈ after, x.NoteNumber ≠ noteOff60.NoteNumber) ∧
          (handleMidiMsg noteOff60
            { freshPlug with mNotes := [noteOn60, noteOn62, noteOn60] }).mNotes =
              before ++ after) ∧
      (handleMidiMsg noteOff60
        { freshPlug with mNotes := [noteOn60, noteOn62, noteOn60] }).mNotes =
          [noteOn60, noteOn62] :=
  ⟨rfl,
    (noteOff_removes_last_of_pitch noteOff60
      { freshPlug with mNotes := [noteOn60, noteOn62, noteOn60] } rfl).1,
    by decide⟩

/-! ### The tick (C2, C3) -/

theorem handleMidiMsg_program_isSome (msg : IMidiMsg) (s : Evaluator) :
    (handleMidiMsg msg s).mProgram.isSome = s.mProgram.isSome := by
  unfold handleMidiMsg
  split
  · simp
  · dsimp only
    split <;> simp
  · rfl

theorem tickProgram_program_isSome (host : HostInfo) (s : Evaluator) :
    (tickProgram host s).mProgram.isSome = s.mProgram.isSome := by
  simp [tickProgram]

theorem runProgram_program_isSome (ceiling : Nat) (s : Evaluator) :
    (runProgram ceiling s).mProgram.isSome = s.mProgram.isSome := by
  simp [runProgram]

theorem handleMidiMsg_tick_of_not_restart (msg : IMidiMsg) (s : Evaluator)
    (h : isRestart s (.midi msg) = false) : (handleMidiMsg msg s).mTick = s.mTick := by
  unfold handleMidiMsg
  split
  · rename_i hOn
    have hne : s.mNotes.isEmpty = false := by
      simpa [isRestart, hOn] using h
    simp [hne]
  · dsimp only
    split <;> rfl
  · rfl

theorem sample_tick (ceiling : Nat) (host : HostInfo) (s : Evaluator) :
    (runProgram ceiling (tickProgram host s)).mTick = toValue (s.mTick + 1) := rfl

theorem tickSeen_eq (host : HostInfo) (s : Evaluator) (h : s.mProgram.isSome = true) :
    tickSeen host s = some (toValue (s.mTick + 1)) := by
  obtain ⟨p, hp⟩ := Option.isSome_iff_exists.mp h
  simp [tickSeen, tickProgram, hp, get_t_after_tick, toValue_toValue]

theorem runEvents_append (compile : Compiler) (ceiling : Nat) (host : HostInfo)
    (xs ys : List Event) (s : Evaluator) :
    runEvents compile ceiling host (xs ++ ys) s =
      runEvents compile ceiling host ys (runEvents compile ceiling host xs s) := by
  induction xs generalizing s with
  | nil => rfl
  | cons x xs ih => exact ih _

theorem runEvents_quiet (compile : Compiler) (ceiling : Nat) (host : HostInfo)
    (events : List Event) (s : Evaluator)
    (hquiet : noRestart compile ceiling host s events = true) :
    toValue (runEvents compile ceiling host events s).mTick =
        toValue (s.mTick + countSamples events) ∧
      (runEvents compile ceiling host events s).mProgram.isSome = s.mProgram.isSome := by
  induction events generalizing s with
  | nil => exact ⟨rfl, rfl⟩
  | cons e es ih =>
    simp only [noRestart, Bool.and_eq_true, Bool.not_eq_true'] at hquiet
    obtain ⟨he, hes⟩ := hquiet
    obtain ⟨htick, hprog⟩ := ih _ hes
    cases e with
    | midi msg =>
      refine ⟨?_, ?_⟩
      · show toValue (runEvents compile ceiling host es (handleMidiMsg msg s)).mTick = _
        have h1 : toValue (runEvents compile ceiling host es (handleMidiMsg msg s)).mTick =
            toValue ((handleMidiMsg msg s).mTick + countSamples es) := htick
        rw [h1, handleMidiMsg_tick_of_not_restart msg s he]
        rfl
      · show (runEvents compile ceiling host es (handleMidiMsg msg s)).mProgram.isSome = _
        have h2 : (runEvents compile ceiling host es (handleMidiMsg msg s)).mProgram.isSome =
            (handleMidiMsg msg s).mProgram.isSome := hprog
        rw [h2, handleMidiMsg_program_isSome]
    | sample =>
      refine ⟨?_, ?_⟩
      · show toValue (runEvents compile ceiling host es
            (runProgram ceiling (tickProgram host s))).mTick = _
        have h1 : toValue (runEvents compile ceiling host es
            (runProgram ceiling (tickProgram host s))).mTick =
            toValue ((runProgram ceiling (tickProgram host s)).mTick + countSamples es) := htick
        rw [h1, sample_tick]
        show toValue (toValue (s.mTick + 1) + countSamples es) =
          toValue (s.mTick + (countSamples es + 1))
        unfold toValue
        rw [Nat.mod_add_mod]
        congr 1
        omega
      · show (runEvents compile ceiling host es
            (runProgram ceiling (tickProgram host s))).mProgram.isSome = _
        have h2 : (runEvents compile ceiling host es
            (runProgram ceiling (tickProgram host s))).mProgram.isSome =
            (runProgram ceiling (tickProgram host s)).mProgram.isSome := hprog
        rw [h2, runProgram_program_isSome, tickProgram_program_isSome]
    | recompile text => simp [isRestart] at he

theorem restart_zeroes_tick (compile : Compiler) (ceiling : Nat) (host : HostInfo)
    (e : Event) (s : Evaluator) (h : isRestart s e = true) :
    (stepEvent compile ceiling host e s).mTick = 0 := by
  cases e with
  | midi msg =>
    simp only [isRestart, Bool.and_eq_true, decide_eq_true_eq] at h
    obtain ⟨hOn, hempty⟩ := h
    simp [stepEvent, handleMidiMsg, hOn, hempty]
  | sample => simp [isRestart] at h
  | recompile text => rfl

/-- C2. Let an event restart the tick (a recompilation, or a note-on handled while no note
is held), let no later event of the sequence do so, and let a program be live. Then the
`t` that `Run` sees at the next sample is the number of samples processed since the restart,
that sample included, as a 64-bit value, which is that number itself while it is below
`2 ^ 64` (so the first such sample sees 1). Every message that is not a restart (a note-on
while another note is held, every note-off) leaves the tick unchanged. -/
theorem tick_counts_samples_since_restart (compile : Compiler) (ceiling : Nat)
    (host : HostInfo) (s0 : Evaluator) (before after : List Event) (e : Event)
    (hrestart : isRestart (runEvents compile ceiling host before s0) e = true)
    (hquiet : noRestart compile ceiling host
      (stepEvent compile ceiling host e (runEvents compile ceiling host before s0)) after = true)
    (hprog : (stepEvent compile ceiling host e
      (runEvents compile ceiling host before s0)).mProgram.isSome = true) :
    tickSeen host (runEvents compile ceiling host (before ++ e :: after) s0) =
        some (toValue (countSamples after + 1)) ∧
      (countSamples after + 1 < 2 ^ 64 →
        tickSeen host (runEvents compile ceiling host (before ++ e :: after) s0) =
          some (countSamples after + 1)) ∧
      (∀ (s : Evaluator) (msg : IMidiMsg), isRestart s (.midi msg) = false →
        (handleMidiMsg msg s).mTick = s.mTick) := by
  have hrun : runEvents compile ceiling host (before ++ e :: after) s0 =
      runEvents compile ceiling host after
        (stepEvent compile ceiling host e (runEvents compile ceiling host before s0)) := by
    rw [runEvents_append]; rfl
  obtain ⟨htick, hsome⟩ := runEvents_quiet compile ceiling host after _ hquiet
  rw [restart_zeroes_tick compile ceiling host e _ hrestart, Nat.zero_add] at htick
  have hseen : tickSeen host (runEvents compile ceiling host (before ++ e :: after) s0) =
      some (toValue (countSamples after + 1)) := by
    rw [hrun, tickSeen_eq host _ (hsome.trans hprog), ← toValue_succ_toValue, htick,
      toValue_succ_toValue]
  refine ⟨hseen, ?_, fun s msg => handleMidiMsg_tick_of_not_restart msg s⟩
  intro hlt
  rw [hseen, toValue_of_lt (by unfold valueModulus; exact hlt)]

/-! ### A frame as a sequence of events -/

theorem drainMidiQueue_as_events (compile : Compiler) (ceiling : Nat) (host : HostInfo)
    (frame : Int) (queue : List IMidiMsg) (s : Evaluator) :
    ∃ handled rest, queue = handled ++ rest ∧
      drainMidiQueue frame queue s =
        { runEvents compile ceiling host (handled.map Event.midi) s with mMidiQueue := rest } := by
  induction queue generalizing s with
  | nil => exact ⟨[], [], rfl, rfl⟩
  | cons msg q ih =>
    by_cases h : msg.mOffset > frame
    · exact ⟨[], msg :: q, rfl, by simp [drainMidiQueue, h, runEvents]⟩
    · obtain ⟨handled, rest, hq, hd⟩ := ih (handleMidiMsg msg s)
      refine ⟨msg :: handled, rest, by rw [hq]; rfl, ?_⟩
      simp only [drainMidiQueue, h, if_false]
      rw [hd]
      rfl

theorem runFrame_state (ceiling : Nat) (range : Value) (in1 in2 : ℚ) (s : Evaluator)
    (r : FrameResult) (h : runFrame ceiling range in1 in2 s = some r) :
    r.state = runProgram ceiling s := by
  unfold runFrame at h
  cases hp : s.mProgram with
  | none => simp [hp] at h
  | some p =>
    simp only [hp, Option.some.injEq] at h
    subst h
    simp [runProgram, hp]

theorem processFrame_as_events (compile : Compiler) (ceiling : Nat) (range : Value)
    (host : HostInfo) (frame : Int) (in1 in2 : ℚ) (s : Evaluator) (r : FrameResult)
    (h : processFrame ceiling range host frame in1 in2 s = some r) :
    ∃ handled rest, s.mMidiQueue = handled ++ rest ∧
      r.state =
        { runEvents compile ceiling host (handled.map Event.midi ++ [Event.sample]) s with
          mMidiQueue := rest } := by
  obtain ⟨handled, rest, hq, hd⟩ :=
    drainMidiQueue_as_events compile ceiling host frame s.mMidiQueue s
  refine ⟨handled, rest, hq, ?_⟩
  rw [runFrame_state ceiling range in1 in2 _ r h, hd, runEvents_append]
  rfl

/-- C2, on a concrete sequence: note 60 on, a sample, note 60 off, then note 62 on from
silence (the restart), a sample, note 60 on while 62 is held, a sample, note 60 off: the
next sample sees `t = 3`. -/
theorem tick_counts_samples_since_restart_witness :
    isRestart (runEvents Program.Compile 1024 hostCD
        [.midi noteOn60, .sample, .midi noteOff60] freshPlug) (.midi noteOn62) = true ∧
      noRestart Program.Compile 1024 hostCD
        (stepEvent Program.Compile 1024 hostCD (.midi noteOn62)
          (runEvents Program.Compile 1024 hostCD
            [.midi noteOn60, .sample, .midi noteOff60] freshPlug))
        [.sample, .midi noteOn60, .sample, .midi noteOff60] = true ∧
      tickSeen hostCD (runEvents Program.Compile 1024 hostCD
        ([.midi noteOn60, .sample, .midi noteOff60] ++
          .midi noteOn62 :: [.sample, .midi noteOn60, .sample, .midi noteOff60]) freshPlug) =
        some (toValue (countSamples [.sample, .midi noteOn60, .sample, .midi noteOff60] + 1)) :=
  ⟨by decide, by decide,
    (tick_counts_samples_since_restart Program.Compile 1024 hostCD freshPlug
      [.midi noteOn60, .sample, .midi noteOff60]
      [.sample, .midi noteOn60, .sample, .midi noteOff60] (.midi noteOn62)
      (by decide) (by decide) (by decide)).1⟩

theorem noRestart_samples (compile : Compiler) (ceiling : Nat) (host : HostInfo) (k : Nat)
    (s : Evaluator) :
    noRestart compile ceiling host s (List.replicate k Event.sample) = true := by
  induction k generalizing s with
  | zero => rfl
  | succ k ih => simp [List.replicate_succ, noRestart, isRestart, ih]

theorem countSamples_samples (k : Nat) : countSamples (List.replicate k Event.sample) = k := by
  induction k with
  | zero => rfl
  | succ k ih => simp [List.replicate_succ, countSamples, ih]

theorem handleMidiMsg_noteOn_tick (msg : IMidiMsg) (s : Evaluator)
    (hOn : msg.StatusMsg = EStatusMsg.kNoteOn) :
    (handleMidiMsg msg s).mTick = if s.mNotes = [] then 0 else s.mTick := by
  unfold handleMidiMsg
  rw [hOn]
  cases s.mNotes <;> simp

/-- C3, refuted as stated: with note 60 held since the previous sample, the sample at which
a note-on for 62 is handled sees `t = 2`, not 1. -/
theorem noteOn_while_held_does_not_restart :
    tickSeen hostCD (runEvents Program.Compile 1024 hostCD
        [.midi noteOn60, .sample, .midi noteOn62] freshPlug) = some 2 ∧
      tickSeen hostCD (runEvents Program.Compile 1024 hostCD
        [.midi noteOn60, .sample, .midi noteOn62] freshPlug) ≠ some 1 := by
  constructor <;> decide

/-- C3, amended. A note-on handled while no note is held restarts the tick: the sample at
which it is handled sees `t = 1`, and the `k`-th sample after it `t = k + 1`. A note-on
handled while another note is held does not: those samples see the tick of before the
note-on plus `k + 1`. (All as 64-bit values; `k` counts the samples in between, during
which no message and no recompilation arrives.) -/
theorem noteOn_restarts_tick_only_from_silence (compile : Compiler) (ceiling : Nat)
    (host : HostInfo) (msg : IMidiMsg) (s : Evaluator) (k : Nat)
    (hOn : msg.StatusMsg = EStatusMsg.kNoteOn) (hprog : s.mProgram.isSome = true) :
    tickSeen host (runEvents compile ceiling host (List.replicate k Event.sample)
        (handleMidiMsg msg s)) =
      some (toValue ((if s.mNotes = [] then 0 else s.mTick) + k + 1)) := by
  obtain ⟨htick, hsome⟩ := runEvents_quiet compile ceiling host
    (List.replicate k Event.sample) (handleMidiMsg msg s)
    (noRestart_samples compile ceiling host k _)
  rw [countSamples_samples, handleMidiMsg_noteOn_tick msg s hOn] at htick
  rw [tickSeen_eq host _ (hsome.trans ((handleMidiMsg_program_isSome msg s).trans hprog)),
    ← toValue_succ_toValue, htick, toValue_succ_toValue]

/-- C3 amended, at a note-on for 62 handled from silence: two samples later the next sample
sees `t = 3`. -/
theorem noteOn_restarts_tick_only_from_silence_witness :
    noteOn62.StatusMsg = EStatusMsg.kNoteOn ∧ freshPlug.mProgram.isSome = true ∧
      tickSeen hostCD (runEvents Program.Compile 1024 hostCD (List.replicate 2 Event.sample)
        (handleMidiMsg noteOn62 freshPlug)) =
        some (toValue ((if freshPlug.mNotes = [] then 0 else freshPlug.mTick) + 2 + 1)) :=
  ⟨rfl, by decide,
    noteOn_restarts_tick_only_from_silence Program.Compile 1024 hostCD noteOn62 freshPlug 2
      rfl (by decide)⟩

/-! ### The note variables (C4) -/

theorem toValue_byte (d : Fin 256) : toValue d.val = d.val :=
  toValue_of_lt (lt_trans d.isLt (by unfold valueModulus; norm_num))

theorem heldNumber_concat (notes : List IMidiMsg) (msg : IMidiMsg) :
    heldNumber (notes ++ [msg]) = msg.NoteNumber := by
  simp [heldNumber]

theorem heldVelocity_concat (notes : List IMidiMsg) (msg : IMidiMsg) :
    heldVelocity (notes ++ [msg]) = msg.Velocity := by
  simp [heldVelocity]

theorem noteOn_sets_note_vars (msg : IMidiMsg) (s : Evaluator) (p : Program)
    (hOn : msg.StatusMsg = EStatusMsg.kNoteOn) (hp : s.mProgram = some p) :
    ∃ p2, (handleMidiMsg msg s).mProgram = some p2 ∧
      p2.Get 'n' = heldNumber (handleMidiMsg msg s).mNotes ∧
      p2.Get 'v' = heldVelocity (handleMidiMsg msg s).mNotes := by
  unfold handleMidiMsg
  rw [hOn]
  refine ⟨(p.Set 'n' msg.NoteNumber).Set 'v' msg.Velocity, by simp [hp], ?_, ?_⟩
  · rw [get_n_set_n_set_v]
    show toValue msg.mData1.val = heldNumber (s.mNotes ++ [msg])
    rw [toValue_byte, heldNumber_concat]; rfl
  · rw [get_v_set_n_set_v]
    show toValue msg.mData2.val = heldVelocity (s.mNotes ++ [msg])
    rw [toValue_byte, heldVelocity_concat]; rfl

theorem noteOff_sets_note_vars (msg : IMidiMsg) (s : Evaluator) (p : Program)
    (hOff : msg.StatusMsg = EStatusMsg.kNoteOff) (hp : s.mProgram = some p) :
    ∃ p2, (handleMidiMsg msg s).mProgram = some p2 ∧
      p2.Get 'n' = heldNumber (handleMidiMsg msg s).mNotes ∧
      p2.Get 'v' = heldVelocity (handleMidiMsg msg s).mNotes := by
  unfold handleMidiMsg
  rw [hOff]
  dsimp only
  cases hlast : (eraseNoteOff msg.NoteNumber s.mNotes).getLast? with
  | none =>
    refine ⟨(p.Set 'n' 0).Set 'v' 0, by simp [hp], ?_, ?_⟩
    · rw [get_n_set_n_set_v]
      simp [heldNumber, hlast, toValue]
    · rw [get_v_set_n_set_v]
      simp [heldVelocity, hlast, toValue]
  | some back =>
    refine ⟨(p.Set 'n' back.NoteNumber).Set 'v' back.Velocity, by simp [hp], ?_, ?_⟩
    · rw [get_n_set_n_set_v]
      show toValue back.mData1.val = _
      rw [toValue_byte]
      simp only [heldNumber, hlast]; rfl
    · rw [get_v_set_n_set_v]
      show toValue back.mData2.val = _
      rw [toValue_byte]
      simp only [heldVelocity, hlast]; rfl

theorem onParamChange_program_of_text (compile : Compiler) (s1 s2 : Evaluator)
    (h : s1.programText = s2.programText) :
    (s1.OnParamChange compile .kExpression).mProgram =
      (s2.OnParamChange compile .kExpression).mProgram := by
  simp [Evaluator.OnParamChange, h]

theorem onParamChange_zeroes_note_vars (compile : Compiler) (s : Evaluator) (p : Program)
    (hp : (s.OnParamChange compile .kExpression).mProgram = some p) :
    p.Get 'n' = 0 ∧ p.Get 'v' = 0 := by
  simp only [Evaluator.OnParamChange, Option.map_eq_some'] at hp
  obtain ⟨q, _, hq⟩ := hp
  subst hq
  exact ⟨by rw [initNoteVars, get_n_set_n_set_v]; rfl,
    by rw [initNoteVars, get_v_set_n_set_v]; rfl⟩

theorem reset_program (compile : Compiler) (s : Evaluator) :
    (s.Reset compile).mProgram = (s.OnParamChange compile .kExpression).mProgram := by
  show (Evaluator.OnParamChange compile .kExpression { s with mProgram := none }).mProgram = _
  exact onParamChange_program_of_text compile _ _ rfl

theorem applyOperation_text (compile : Compiler) (o : Operation) (s : Evaluator) :
    (applyOperation compile o s).programText = s.programText := by
  cases o with
  | noteOn offset number velocity =>
    simp [applyOperation, handleMidiMsg, IMidiMsg.StatusMsg]
  | noteOff offset number velocity =>
    simp only [applyOperation, handleMidiMsg, IMidiMsg.StatusMsg]
    split <;> rfl
  | recompile => rfl
  | reset => rfl

theorem runOperations_text (compile : Compiler) (ops : List Operation) (s : Evaluator) :
    (runOperations compile ops s).programText = s.programText := by
  induction ops generalizing s with
  | nil => rfl
  | cons o os ih =>
    show (runOperations compile os (applyOperation compile o s)).programText = _
    rw [ih, applyOperation_text]

theorem runOperations_concat (compile : Compiler) (ops : List Operation) (o : Operation)
    (s : Evaluator) :
    runOperations compile (ops ++ [o]) s =
      applyOperation compile o (runOperations compile ops s) := by
  induction ops generalizing s with
  | nil => rfl
  | cons x xs ih => exact ih _

theorem runOperations_program_isSome (compile : Compiler) (s0 : Evaluator)
    (hprog : (s0.Reset compile).mProgram.isSome = true) (ops : List Operation) :
    (runOperations compile ops (s0.Reset compile)).mProgram.isSome = true := by
  induction ops using List.reverseRecOn with
  | nil => exact hprog
  | append_singleton init o ih =>
    rw [runOperations_concat]
    have htext : (runOperations compile init (s0.Reset compile)).programText =
        s0.programText := by
      rw [runOperations_text]; rfl
    cases o with
    | noteOn offset number velocity =>
      show (handleMidiMsg _ _).mProgram.isSome = true
      rw [handleMidiMsg_program_isSome]; exact ih
    | noteOff offset number velocity =>
      show (handleMidiMsg _ _).mProgram.isSome = true
      rw [handleMidiMsg_program_isSome]; exact ih
    | recompile =>
      show (Evaluator.OnParamChange compile .kExpression _).mProgram.isSome = true
      rw [onParamChange_program_of_text compile _ s0 htext, ← reset_program]
      exact hprog
    | reset =>
      show (Evaluator.Reset compile _).mProgram.isSome = true
      rw [reset_program, onParamChange_program_of_text compile _ s0 htext, ← reset_program]
      exact hprog

/-- C4, refuted as stated: after `Reset`, a note-on for note 60 and a recompilation, note 60
is still held (it is the last held note) but `n` and `v` are 0. -/
theorem recompile_zeroes_note_vars_while_held :
    (runOperations Program.Compile [.noteOn 0 60 100, .recompile] freshPlug).mProgram.map
        (fun p => (p.Get 'n', p.Get 'v')) = some (0, 0) ∧
      heldNumber (runOperations Program.Compile [.noteOn 0 60 100, .recompile]
        freshPlug).mNotes = 60 ∧
      heldVelocity (runOperations Program.Compile [.noteOn 0 60 100, .recompile]
        freshPlug).mNotes = 100 := by
  refine ⟨?_, ?_, ?_⟩ <;> decide

/-- C4, amended. In every state reachable from `Reset` by note-on handling, note-off
handling, recompilation and `Reset` there is a live program, and unless the last of these
operations was a recompilation its `n` and `v` are the note number and velocity of the last
held note (both 0 when no note is held); right after a recompilation both are 0, whatever
notes are held. -/
theorem note_vars_track_held_notes (compile : Compiler) (s0 : Evaluator)
    (ops : List Operation) (hprog : (s0.Reset compile).mProgram.isSome = true) :
    ∃ p, (runOperations compile ops (s0.Reset compile)).mProgram = some p ∧
      (endsWithRecompile ops = false →
        p.Get 'n' = heldNumber (runOperations compile ops (s0.Reset compile)).mNotes ∧
          p.Get 'v' = heldVelocity (runOperations compile ops (s0.Reset compile)).mNotes) ∧
      (endsWithRecompile ops = true → p.Get 'n' = 0 ∧ p.Get 'v' = 0) := by
  obtain ⟨p, hp⟩ := Option.isSome_iff_exists.mp
    (runOperations_program_isSome compile s0 hprog ops)
  cases ops using List.reverseRecOn with
  | nil =>
    refine ⟨p, hp, fun _ => ?_, fun h => by simp [endsWithRecompile] at h⟩
    have hp2 : (s0.OnParamChange compile .kExpression).mProgram = some p := by
      rw [← reset_program]; exact hp
    have hz := onParamChange_zeroes_note_vars compile s0 p hp2
    exact ⟨hz.1, hz.2⟩
  | append_singleton init o =>
    obtain ⟨q, hq⟩ := Option.isSome_iff_exists.mp
      (runOperations_program_isSome compile s0 hprog init)
    rw [runOperations_concat] at hp ⊢
    cases o with
    | noteOn offset number velocity =>
      obtain ⟨p2, hp2, hn, hv⟩ := noteOn_sets_note_vars ⟨offset, .kNoteOn, number, velocity⟩
        (runOperations compile init (s0.Reset compile)) q rfl hq
      exact ⟨p2, hp2, fun _ => ⟨hn, hv⟩, fun h => by simp [endsWithRecompile] at h⟩
    | noteOff offset number velocity =>
      obtain ⟨p2, hp2, hn, hv⟩ := noteOff_sets_note_vars ⟨offset, .kNoteOff, number, velocity⟩
        (runOperations compile init (s0.Reset compile)) q rfl hq
      exact ⟨p2, hp2, fun _ => ⟨hn, hv⟩, fun h => by simp [endsWithRecompile] at h⟩
    | recompile =>
      exact ⟨p, hp, fun h => by simp [endsWithRecompile] at h,
        fun _ => onParamChange_zeroes_note_vars compile _ p hp⟩
    | reset =>
      refine ⟨p, hp, fun _ => ?_, fun h => by simp [endsWithRecompile] at h⟩
      have hp2 : ((runOperations compile init (s0.Reset compile)).OnParamChange compile
          .kExpression).mProgram = some p := by
        rw [← reset_program]; exact hp
      have hz := onParamChange_zeroes_note_vars compile _ p hp2
      exact ⟨hz.1, hz.2⟩

/-- C4 amended, on a concrete sequence: after note 60 on, a recompilation, note 62 on and
note 62 off, `n` and `v` are again those of the held note 60. -/
theorem note_vars_track_held_notes_witness :
    (Evaluator.construct.Reset Program.Compile).mProgram.isSome = true ∧
      ∃ p, (runOperations Program.Compile
          [.noteOn 0 60 100, .recompile, .noteOn 0 62 90, .noteOff 0 62 0]
          (Evaluator.construct.Reset Program.Compile)).mProgram = some p ∧
        (endsWithRecompile [.noteOn 0 60 100, .recompile, .noteOn 0 62 90, .noteOff 0 62 0] =
            false →
          p.Get 'n' = heldNumber (runOperations Program.Compile
              [.noteOn 0 60 100, .recompile, .noteOn 0 62 90, .noteOff 0 62 0]
              (Evaluator.construct.Reset Program.Compile)).mNotes ∧
            p.Get 'v' = heldVelocity (runOperations Program.Compile
              [.noteOn 0 60 100, .recompile, .noteOn 0 62 90, .noteOff 0 62 0]
              (Evaluator.construct.Reset Program.Compile)).mNotes) ∧
        (endsWithRecompile [.noteOn 0 60 100, .recompile, .noteOn 0 62 90, .noteOff 0 62 0] =
            true → p.Get 'n' = 0 ∧ p.Get 'v' = 0) :=
  ⟨by decide,
    note_vars_track_held_notes Program.Compile Evaluator.construct
      [.noteOn 0 60 100, .recompile, .noteOn 0 62 90, .noteOff 0 62 0] (by decide)⟩

/-! ### Persisted state (C6) -/

theorem decodeInt32_encode (n : Nat) (h : n < 2 ^ 31) :
    decodeInt32 (n % 256) (n / 256 % 256) (n / 65536 % 256) (n / 16777216 % 256) = (n : Int) := by
  have hsum : n % 256 + 256 * (n / 256 % 256) + 65536 * (n / 65536 % 256) +
      16777216 * (n / 16777216 % 256) = n := by
    norm_num at h
    omega
  unfold decodeInt32
  simp only [hsum]
  norm_num at h
  rw [if_pos (by omega)]

theorem string_of_codes (text : String) :
    String.mk ((text.toList.map Char.toNat).map Char.ofNat) = text := by
  have h : (text.toList.map Char.toNat).map Char.ofNat = text.toList := by
    rw [List.map_map]
    conv_rhs => rw [← List.map_id text.toList]
    apply List.map_congr_left
    intro c _
    simp [Function.comp]
  rw [h]
  rfl

theorem getStr_putStr (chunk0 : ByteChunk) (text : String) (rest : List Nat)
    (hlen : text.length < 2 ^ 31) :
    ByteChunk.GetStr (chunk0.PutStr text ++ rest) "" (chunk0.length : Int) =
      (text, ((chunk0.PutStr text).length : Int)) := by
  have hchunk : chunk0.PutStr text ++ rest =
      chunk0 ++ (text.length % 256 :: text.length / 256 % 256 :: text.length / 65536 % 256 ::
        text.length / 16777216 % 256 :: (text.toList.map Char.toNat ++ rest)) := by
    simp [ByteChunk.PutStr, encodeInt32]
  have hsize : (chunk0.PutStr text).length = chunk0.length + 4 + text.length := by
    simp [ByteChunk.PutStr, encodeInt32]
    omega
  have htotal : (chunk0.PutStr text ++ rest).length =
      chunk0.length + 4 + text.length + rest.length := by
    rw [List.length_append, hsize]
  unfold ByteChunk.GetStr
  rw [if_neg (by rw [htotal]; push_cast; omega)]
  simp only [Int.toNat_ofNat]
  rw [htotal]
  rw [hchunk, List.drop_left]
  simp only [decodeInt32_encode text.length hlen]
  by_cases hpos : 0 < text.length
  · rw [if_pos ⟨by push_cast; omega, by exact_mod_cast hpos⟩]
    simp only [Int.toNat_ofNat]
    have htake : List.take text.length (text.toList.map Char.toNat ++ rest) =
        text.toList.map Char.toNat := by
      rw [List.take_left']
      simp
    rw [htake, string_of_codes, hsize]
    push_cast
    rfl
  · have hzero : text.length = 0 := by omega
    rw [if_neg (by rw [hzero]; simp)]
    have htext : text = "" := by
      have : text.toList = [] := List.length_eq_zero.mp hzero
      cases text
      simp_all
    rw [hsize, hzero]
    subst htext
    push_cast
    rfl

/-- C6. `UnserializeState`, applied at the position where `SerializeState` began writing, to
the chunk it wrote while the program text was `s.programText` (of a length that fits the
32-bit length field): the program text of the receiving plug-in becomes exactly that text,
the program is the one `OnParamChange(kExpression)` compiles from it, and parameter
deserialisation is handed the position right after the length-prefixed string, which is
where the parameter bytes begin. -/
theorem unserialize_serialized_state (compile : Compiler) (paramBytes : List Nat)
    (chunk0 : ByteChunk) (s receiver : Evaluator) (hlen : s.programText.length < 2 ^ 31) :
    (Evaluator.UnserializeState compile (s.SerializeState paramBytes chunk0) chunk0.length
        receiver).state.programText = s.programText ∧
      (Evaluator.UnserializeState compile (s.SerializeState paramBytes chunk0) chunk0.length
        receiver).state =
        Evaluator.OnParamChange compile .kExpression
          { receiver with programText := s.programText } ∧
      (Evaluator.UnserializeState compile (s.SerializeState paramBytes chunk0) chunk0.length
        receiver).paramsPos = ((chunk0.PutStr s.programText).length : Int) ∧
      (s.SerializeState paramBytes chunk0).drop (chunk0.PutStr s.programText).length =
        paramBytes := by
  have hget := getStr_putStr chunk0 s.programText paramBytes hlen
  refine ⟨?_, ?_, ?_, ?_⟩
  · show (SetProgramText compile _ receiver).programText = _
    unfold Evaluator.SerializeState
    rw [hget]
    rfl
  · show SetProgramText compile _ receiver = _
    unfold Evaluator.SerializeState
    rw [hget]
    rfl
  · show (ByteChunk.GetStr _ "" _).2 = _
    unfold Evaluator.SerializeState
    rw [hget]
  · unfold Evaluator.SerializeState
    rw [List.drop_left]

/-- C6, for the default text `t*128` written after one earlier byte and followed by two
parameter bytes, read back into a plug-in that held the malformed text. -/
theorem unserialize_serialized_state_witness :
    Evaluator.construct.programText.length < 2 ^ 31 ∧
      (Evaluator.UnserializeState Program.Compile
        (Evaluator.construct.SerializeState [1, 2] [7]) (([7] : ByteChunk).length : Int)
        malformedTextPlug).state.programText = Evaluator.construct.programText ∧
      (Evaluator.UnserializeState Program.Compile
        (Evaluator.construct.SerializeState [1, 2] [7]) (([7] : ByteChunk).length : Int)
        malformedTextPlug).paramsPos = 10 :=
  ⟨by decide,
    (unserialize_serialized_state Program.Compile [1, 2] [7] Evaluator.construct
      malformedTextPlug (by decide)).1,
    by decide⟩

/-! ### The fallback program `r/2` (C7, C8) -/

theorem rangeOf_eq (b : Nat) (hb : b ≤ 30) : rangeOf b = 2 ^ b := by
  unfold rangeOf
  rw [Nat.shiftLeft_eq, Nat.one_mul]
  apply toValue_of_lt
  unfold valueModulus
  exact Nat.pow_lt_pow_right (by norm_num) (by omega)

theorem evalSample_eq (g : ℚ) (range x : Nat) (h : 2 ≤ range) :
    evalSample g range x = g * (2 * ((x % range : Nat) : ℚ) / ((range : ℚ) - 1)) - g := by
  unfold evalSample
  rw [Nat.cast_sub (by omega : 1 ≤ range)]
  push_cast
  ring

/-- C10, refuted as stated: at gain 0 with 1 bit (range 2) and program result 1 the sample
is 0, which is `-g`, although the result modulo the range is 1 and not 0. -/
theorem zero_gain_sample_is_minus_gain_off_the_bottom :
    ¬ (evalSample 0 (rangeOf 1) 1 = -0 ↔ 1 % rangeOf 1 = 0) := by
  have hr : rangeOf 1 = 2 := by decide
  rw [hr]
  simp [evalSample]

theorem evalSample_facts (g : ℚ) (range x : Nat) (h2 : 2 ≤ range) (hg : 0 ≤ g) :
    -g ≤ evalSample g range x ∧ evalSample g range x ≤ g ∧
      (x % range = 0 → evalSample g range x = -g) ∧
      (x % range = range - 1 → evalSample g range x = g) ∧
      (0 < g → (evalSample g range x = -g ↔ x % range = 0) ∧
        (evalSample g range x = g ↔ x % range = range - 1)) := by
  have hdpos : (0 : ℚ) < (range : ℚ) - 1 := by
    have : (2 : ℚ) ≤ (range : ℚ) := by exact_mod_cast h2
    linarith
  have hy0 : (0 : ℚ) ≤ ((x % range : Nat) : ℚ) := Nat.cast_nonneg _
  have hylt : x % range < range := Nat.mod_lt _ (by omega)
  have hy1 : ((x % range : Nat) : ℚ) ≤ (range : ℚ) - 1 := by
    have : x % range + 1 ≤ range := hylt
    have hc : ((x % range : Nat) : ℚ) + 1 ≤ (range : ℚ) := by exact_mod_cast this
    linarith
  have hfrac0 : 0 ≤ 2 * ((x % range : Nat) : ℚ) / ((range : ℚ) - 1) :=
    div_nonneg (by linarith) hdpos.le
  have hfrac2 : 2 * ((x % range : Nat) : ℚ) / ((range : ℚ) - 1) ≤ 2 := by
    rw [div_le_iff₀ hdpos]
    linarith
  have heq := evalSample_eq g range x h2
  have hbottom : x % range = 0 → evalSample g range x = -g := by
    intro h0
    rw [heq, h0]
    simp
  have htop : x % range = range - 1 → evalSample g range x = g := by
    intro h1
    have hc : ((x % range : Nat) : ℚ) = (range : ℚ) - 1 := by
      rw [h1, Nat.cast_sub (by omega : 1 ≤ range)]
      simp
    rw [heq, hc, mul_div_assoc, div_self hdpos.ne']
    ring
  refine ⟨?_, ?_, hbottom, htop, ?_⟩
  · rw [heq]
    have := mul_nonneg hg hfrac0
    linarith
  · rw [heq]
    have : g * (2 * ((x % range : Nat) : ℚ) / ((range : ℚ) - 1)) ≤ g * 2 :=
      mul_le_mul_of_nonneg_left hfrac2 hg
    linarith
  · intro hgpos
    constructor
    · refine ⟨fun h => ?_, hbottom⟩
      rw [heq] at h
      have hz : g * (2 * ((x % range : Nat) : ℚ) / ((range : ℚ) - 1)) = 0 := by
        linarith
      rcases mul_eq_zero.mp hz with hg0 | hf0
      · exact absurd hg0 hgpos.ne'
      · rcases div_eq_zero_iff.mp hf0 with hnum | hden
        · have : ((x % range : Nat) : ℚ) = 0 := by linarith
          exact_mod_cast this
        · exact absurd hden hdpos.ne'
    · refine ⟨fun h => ?_, htop⟩
      rw [heq] at h
      have hz : g * (2 * ((x % range : Nat) : ℚ) / ((range : ℚ) - 1) - 2) = 0 := by
        linarith
      rcases mul_eq_zero.mp hz with hg0 | hf0
      · exact absurd hg0 hgpos.ne'
      · have hf2 : 2 * ((x % range : Nat) : ℚ) / ((range : ℚ) - 1) = 2 := by linarith
        rw [div_eq_iff hdpos.ne'] at hf2
        have hc : ((x % range : Nat) : ℚ) + 1 = (range : ℚ) := by linarith
        have hn : x % range + 1 = range := by exact_mod_cast hc
        omega

/-- C10, amended. For every bit depth from 1 to 30 the range is `2 ^ b`, at least 2; for
every gain `g ≥ 0` and program result `x` the sample `g * (-1 + 2 * (x mod range) /
(range - 1))`, in exact rational arithmetic, lies in `[-g, g]`; it is `-g` when
`x mod range = 0` and `g` when `x mod range = range - 1`, and for `g > 0` only then; and a
frame adds this one sample to both of its inputs. -/
theorem sample_within_gain (b : Nat) (g : ℚ) (x : Value) (hb1 : 1 ≤ b) (hb30 : b ≤ 30)
    (hg : 0 ≤ g) :
    rangeOf b = 2 ^ b ∧ 2 ≤ rangeOf b ∧
      -g ≤ evalSample g (rangeOf b) x ∧ evalSample g (rangeOf b) x ≤ g ∧
      (x % rangeOf b = 0 → evalSample g (rangeOf b) x = -g) ∧
      (x % rangeOf b = rangeOf b - 1 → evalSample g (rangeOf b) x = g) ∧
      (0 < g → (evalSample g (rangeOf b) x = -g ↔ x % rangeOf b = 0) ∧
        (evalSample g (rangeOf b) x = g ↔ x % rangeOf b = rangeOf b - 1)) ∧
      (∀ (ceiling : Nat) (in1 in2 : ℚ) (s : Evaluator) (p : Program),
        s.mProgram = some p → s.mGain = g → (p.Run ceiling).result = x →
        ∃ r, runFrame ceiling (rangeOf b) in1 in2 s = some r ∧
          r.out1 = in1 + evalSample g (rangeOf b) x ∧
          r.out2 = in2 + evalSample g (rangeOf b) x) := by
  have hrange : rangeOf b = 2 ^ b := rangeOf_eq b hb30
  have h2 : (2 : Nat) ≤ rangeOf b := by
    rw [hrange]
    calc 2 = 2 ^ 1 := rfl
      _ ≤ 2 ^ b := Nat.pow_le_pow_right (by norm_num) hb1
  obtain ⟨hlo, hhi, hbottom, htop, hiff⟩ := evalSample_facts g (rangeOf b) x h2 hg
  refine ⟨hrange, h2, hlo, hhi, hbottom, htop, hiff, ?_⟩
  intro ceiling in1 in2 s p hp hgain hres
  refine ⟨⟨{ s with mProgram := some (p.Run ceiling).program },
    in1 + evalSample s.mGain (rangeOf b) (p.Run ceiling).result,
    in2 + evalSample s.mGain (rangeOf b) (p.Run ceiling).result, (p.Run ceiling).error⟩,
    ?_, ?_, ?_⟩
  · simp only [runFrame, hp]
  · simp only [hgain, hres]
  · simp only [hgain, hres]

/-- C10 amended, at 15 bits, half gain and a program result of 40000. -/
theorem sample_within_gain_witness :
    1 ≤ 15 ∧ 15 ≤ 30 ∧ (0 : ℚ) ≤ 1 / 2 ∧
      -(1 / 2 : ℚ) ≤ evalSample (1 / 2) (rangeOf 15) 40000 ∧
      evalSample (1 / 2) (rangeOf 15) 40000 ≤ 1 / 2 :=
  ⟨by decide, by decide, by norm_num,
    (sample_within_gain 15 (1 / 2) 40000 (by decide) (by decide) (by norm_num)).2.2.1,
    (sample_within_gain 15 (1 / 2) 40000 (by decide) (by decide) (by norm_num)).2.2.2.1⟩

/-! ### The two divisors (C5) -/

theorem log2_le_self {x : ℚ} (hx : 0 < x) : (2 : ℚ) ^ Int.log 2 x ≤ x := by
  have h := Int.zpow_log_le_self (b := 2) (by norm_num) hx
  simpa using h

theorem log2_lt_of_lt {x : ℚ} (hx : 0 < x) {k : ℤ} (h : x < (2 : ℚ) ^ k) : Int.log 2 x < k :=
  (Int.lt_zpow_iff_log_lt (b := 2) (by norm_num) hx).mp (by simpa using h)

theorem le_log2_of_le {x : ℚ} (hx : 0 < x) {k : ℤ} (h : (2 : ℚ) ^ k ≤ x) : k ≤ Int.log 2 x :=
  (Int.zpow_le_iff_le_log (b := 2) (by norm_num) hx).mp (by simpa using h)

theorem log2_eq {x : ℚ} {k : ℤ} (hlo : (2 : ℚ) ^ k ≤ x) (hhi : x < (2 : ℚ) ^ (k + 1)) :
    Int.log 2 x = k := by
  have hx : 0 < x := lt_of_lt_of_le (by positivity) hlo
  have h1 := le_log2_of_le hx hlo
  have h2 := log2_lt_of_lt hx hhi
  omega

theorem two_zpow_of_nonneg {k : ℤ} (hk : 0 ≤ k) : ∃ K : ℤ, (2 : ℚ) ^ k = (K : ℚ) ∧ 0 < K := by
  obtain ⟨n, rfl⟩ := Int.eq_ofNat_of_zero_le hk
  refine ⟨2 ^ n, ?_, by positivity⟩
  push_cast
  rw [zpow_natCast]

theorem two_zpow_cancel (a : ℤ) : (2 : ℚ) ^ (52 - a) * (2 : ℚ) ^ (a - 52) = 1 := by
  rw [← zpow_add₀ (by norm_num : (2 : ℚ) ≠ 0)]
  simp

theorem floor_le_roundHalfEven (x : ℚ) : ⌊x⌋ ≤ roundHalfEven x := by
  unfold roundHalfEven
  split_ifs <;> omega

theorem roundHalfEven_le_floor_succ (x : ℚ) : roundHalfEven x ≤ ⌊x⌋ + 1 := by
  unfold roundHalfEven
  split_ifs <;> omega

theorem roundHalfEven_ge (x : ℚ) (N : ℤ) (h : (N : ℚ) ≤ x) : N ≤ roundHalfEven x :=
  le_trans (Int.le_floor.mpr h) (floor_le_roundHalfEven x)

theorem roundHalfEven_le (x : ℚ) (N : ℤ) (h : x ≤ (N : ℚ)) : roundHalfEven x ≤ N := by
  by_cases hfrac : x - ⌊x⌋ < 1 / 2
  · have hr : roundHalfEven x = ⌊x⌋ := by
      unfold roundHalfEven
      rw [if_pos hfrac]
    rw [hr]
    exact_mod_cast (Int.floor_le x).trans h
  · have hlt : (⌊x⌋ : ℚ) < (N : ℚ) := by
      have := Int.floor_le x
      linarith
    have hlt2 : ⌊x⌋ < N := by exact_mod_cast hlt
    have := roundHalfEven_le_floor_succ x
    omega

theorem roundHalfEven_lt (x : ℚ) (N : ℤ) (h : x < (N : ℚ) - 1 / 2) : roundHalfEven x < N := by
  have hfl : (⌊x⌋ : ℚ) < (N : ℚ) := by
    have := Int.floor_le x
    linarith
  have hfl2 : ⌊x⌋ < N := by exact_mod_cast hfl
  by_cases hcase : ⌊x⌋ + 1 < N
  · have := roundHalfEven_le_floor_succ x
    omega
  · have heq : ⌊x⌋ = N - 1 := by omega
    have hfrac : x - ⌊x⌋ < 1 / 2 := by
      rw [heq]
      push_cast
      linarith
    have hr : roundHalfEven x = ⌊x⌋ := by
      unfold roundHalfEven
      rw [if_pos hfrac]
    omega

theorem roundHalfEven_gt (x : ℚ) (N : ℤ) (h : (N : ℚ) - 1 / 2 < x) : N ≤ roundHalfEven x := by
  have hfl : N - 1 ≤ ⌊x⌋ := by
    apply Int.le_floor.mpr
    push_cast
    linarith
  by_cases hcase : N ≤ ⌊x⌋
  · exact le_trans hcase (floor_le_roundHalfEven x)
  · have heq : ⌊x⌋ = N - 1 := by omega
    have hfrac : 1 / 2 < x - ⌊x⌋ := by
      rw [heq]
      push_cast
      linarith
    have hr : roundHalfEven x = ⌊x⌋ + 1 := by
      have hn : ¬ x - ⌊x⌋ < 1 / 2 := not_lt.mpr hfrac.le
      unfold roundHalfEven
      rw [if_neg hn, if_pos hfrac]
    omega

theorem roundHalfEven_eq (x : ℚ) (N : ℤ) (h1 : (N : ℚ) - 1 / 2 < x) (h2 : x < (N : ℚ) + 1 / 2) :
    roundHalfEven x = N := by
  have hge := roundHalfEven_gt x N h1
  have hlt := roundHalfEven_lt x (N + 1) (by push_cast; linarith)
  omega

theorem roundDouble_of_pos {x : ℚ} (hx : 0 < x) :
    roundDouble x =
      (roundHalfEven (x * 2 ^ (52 - Int.log 2 x)) : ℚ) * 2 ^ (Int.log 2 x - 52) := by
  simp [roundDouble, hx]

theorem roundDouble_ge_of_scaled {x : ℚ} (hx : 0 < x) (d : ℚ) (K : ℤ)
    (hK : d * 2 ^ (52 - Int.log 2 x) = (K : ℚ)) (hle : d ≤ x) : d ≤ roundDouble x := by
  have hscale : (0 : ℚ) < 2 ^ (52 - Int.log 2 x) := by positivity
  have hback : (0 : ℚ) < 2 ^ (Int.log 2 x - 52) := by positivity
  have hKle : K ≤ roundHalfEven (x * 2 ^ (52 - Int.log 2 x)) := by
    apply roundHalfEven_ge
    rw [← hK]
    exact mul_le_mul_of_nonneg_right hle hscale.le
  have hd : d = (K : ℚ) * 2 ^ (Int.log 2 x - 52) := by
    rw [← hK, mul_assoc, two_zpow_cancel, mul_one]
  rw [roundDouble_of_pos hx, hd]
  exact mul_le_mul_of_nonneg_right (by exact_mod_cast hKle) hback.le

theorem roundDouble_le_of_scaled {x : ℚ} (hx : 0 < x) (d : ℚ) (K : ℤ)
    (hK : d * 2 ^ (52 - Int.log 2 x) = (K : ℚ)) (hle : x ≤ d) : roundDouble x ≤ d := by
  have hscale : (0 : ℚ) < 2 ^ (52 - Int.log 2 x) := by positivity
  have hback : (0 : ℚ) < 2 ^ (Int.log 2 x - 52) := by positivity
  have hKle : roundHalfEven (x * 2 ^ (52 - Int.log 2 x)) ≤ K := by
    apply roundHalfEven_le
    rw [← hK]
    exact mul_le_mul_of_nonneg_right hle hscale.le
  have hd : d = (K : ℚ) * 2 ^ (Int.log 2 x - 52) := by
    rw [← hK, mul_assoc, two_zpow_cancel, mul_one]
  rw [roundDouble_of_pos hx, hd]
  exact mul_le_mul_of_nonneg_right (by exact_mod_cast hKle) hback.le

theorem roundDouble_lt_of_scaled {x : ℚ} (hx : 0 < x) (d : ℚ) (K : ℤ)
    (hK : d * 2 ^ (52 - Int.log 2 x) = (K : ℚ))
    (hlt : x * 2 ^ (52 - Int.log 2 x) < (K : ℚ) - 1 / 2) : roundDouble x < d := by
  have hback : (0 : ℚ) < 2 ^ (Int.log 2 x - 52) := by positivity
  have hKlt : roundHalfEven (x * 2 ^ (52 - Int.log 2 x)) < K := roundHalfEven_lt _ K hlt
  have hd : d = (K : ℚ) * 2 ^ (Int.log 2 x - 52) := by
    rw [← hK, mul_assoc, two_zpow_cancel, mul_one]
  rw [roundDouble_of_pos hx, hd]
  exact mul_lt_mul_of_pos_right (by exact_mod_cast hKlt) hback

theorem zpow_log2_le_roundDouble {x : ℚ} (hx : 0 < x) :
    (2 : ℚ) ^ Int.log 2 x ≤ roundDouble x := by
  apply roundDouble_ge_of_scaled hx _ (2 ^ 52)
  · rw [← zpow_add₀ (by norm_num : (2 : ℚ) ≠ 0)]
    norm_num
  · exact log2_le_self hx

theorem roundDouble_eq_of_bounds {x : ℚ} (e N : ℤ) (hlo : (2 : ℚ) ^ e ≤ x)
    (hhi : x < (2 : ℚ) ^ (e + 1)) (h1 : (N : ℚ) - 1 / 2 < x * 2 ^ (52 - e))
    (h2 : x * 2 ^ (52 - e) < (N : ℚ) + 1 / 2) :
    roundDouble x = (N : ℚ) * 2 ^ (e - 52) := by
  have hx : 0 < x := lt_of_lt_of_le (by positivity) hlo
  rw [roundDouble_of_pos hx, log2_eq hlo hhi, roundHalfEven_eq _ N h1 h2]

theorem scaled_of_double {x : ℚ} (hx : 0 < x) (hdouble : roundDouble x = x) :
    ∃ M : ℤ, x * 2 ^ (52 - Int.log 2 x) = (M : ℚ) := by
  refine ⟨roundHalfEven (x * 2 ^ (52 - Int.log 2 x)), ?_⟩
  have h := roundDouble_of_pos hx
  rw [hdouble] at h
  have hc : (2 : ℚ) ^ (Int.log 2 x - 52) * 2 ^ (52 - Int.log 2 x) = 1 := by
    rw [mul_comm]; exact two_zpow_cancel _
  calc x * 2 ^ (52 - Int.log 2 x)
      = (roundHalfEven (x * 2 ^ (52 - Int.log 2 x)) : ℚ) * 2 ^ (Int.log 2 x - 52) *
          2 ^ (52 - Int.log 2 x) := by rw [← h]
    _ = (roundHalfEven (x * 2 ^ (52 - Int.log 2 x)) : ℚ) := by rw [mul_assoc, hc, mul_one]

theorem lt_zpow_log2_succ {x : ℚ} (hx : 0 < x) : x < (2 : ℚ) ^ (Int.log 2 x + 1) := by
  by_contra hcon
  have h := le_log2_of_le hx (not_lt.mp hcon)
  omega

theorem floor_divDouble_thousand (rate : ℚ) (hdouble : roundDouble rate = rate)
    (hrate : 1000 ≤ rate) (h53 : rate < 2 ^ 53) :
    ⌊divDouble rate 1000⌋ = ⌊rate / 1000⌋ := by
  have hsr : 0 < rate := by linarith
  have hx : 0 < rate / 1000 := by positivity
  have hes : Int.log 2 rate < 53 := log2_lt_of_lt hsr (by norm_num at h53 ⊢; exact h53)
  have hP := lt_zpow_log2_succ hsr
  have hPpos : (0 : ℚ) < 2 ^ (Int.log 2 rate + 1) := by positivity
  have he : Int.log 2 (rate / 1000) < Int.log 2 rate - 8 := by
    apply log2_lt_of_lt hx
    have h2 : (2 : ℚ) ^ (Int.log 2 rate - 8) = 2 ^ (Int.log 2 rate + 1) * 2 ^ (-9 : ℤ) := by
      rw [← zpow_add₀ (by norm_num : (2 : ℚ) ≠ 0)]
      congr 1
      ring
    rw [h2]
    norm_num
    linarith
  obtain ⟨M, hM⟩ := scaled_of_double hsr hdouble
  obtain ⟨KS, hKS, _⟩ := two_zpow_of_nonneg (k := 52 - Int.log 2 (rate / 1000)) (by omega)
  obtain ⟨KT, hKT, hKTpos⟩ := two_zpow_of_nonneg (k := 52 - Int.log 2 rate) (by omega)
  have hsplit : (2 : ℚ) ^ (52 - Int.log 2 (rate / 1000)) =
      2 ^ (52 - Int.log 2 rate) * 2 ^ (Int.log 2 rate - Int.log 2 (rate / 1000)) := by
    rw [← zpow_add₀ (by norm_num : (2 : ℚ) ≠ 0)]
    congr 1
    ring
  have hB : (512 : ℚ) ≤ 2 ^ (Int.log 2 rate - Int.log 2 (rate / 1000)) := by
    have h9 : (2 : ℚ) ^ (9 : ℤ) ≤ 2 ^ (Int.log 2 rate - Int.log 2 (rate / 1000)) :=
      zpow_le_zpow_right₀ (by norm_num) (by omega)
    norm_num at h9
    exact h9
  have hxlt : rate / 1000 < (⌊rate / 1000⌋ : ℚ) + 1 := Int.lt_floor_add_one _
  have hgap : 0 < 1000 * ((⌊rate / 1000⌋ : ℚ) + 1) - rate := by linarith
  have hJ : (1 : ℚ) ≤ (1000 * ((⌊rate / 1000⌋ : ℚ) + 1) - rate) * 2 ^ (52 - Int.log 2 rate) := by
    have hint : (1000 * ((⌊rate / 1000⌋ : ℚ) + 1) - rate) * 2 ^ (52 - Int.log 2 rate) =
        ((1000 * (⌊rate / 1000⌋ + 1) * KT - M : ℤ) : ℚ) := by
      push_cast
      rw [sub_mul, hM, hKT]
    rw [hint]
    have hpos : (0 : ℚ) < ((1000 * (⌊rate / 1000⌋ + 1) * KT - M : ℤ) : ℚ) := by
      rw [← hint]
      exact mul_pos hgap (by positivity)
    have hpos2 : 0 < 1000 * (⌊rate / 1000⌋ + 1) * KT - M := by exact_mod_cast hpos
    exact_mod_cast hpos2
  apply Int.floor_eq_iff.mpr
  constructor
  · apply roundDouble_ge_of_scaled hx _ (⌊rate / 1000⌋ * KS)
    · push_cast
      rw [hKS]
    · exact Int.floor_le _
  · have hlt : divDouble rate 1000 < ((⌊rate / 1000⌋ + 1 : ℤ) : ℚ) := by
      apply roundDouble_lt_of_scaled hx _ ((⌊rate / 1000⌋ + 1) * KS)
      · push_cast
        rw [hKS]
      · push_cast
        rw [← hKS, hsplit]
        have hT : (0 : ℚ) < 2 ^ (52 - Int.log 2 rate) := by positivity
        have hprod : (512 : ℚ) ≤
            (1000 * ((⌊rate / 1000⌋ : ℚ) + 1) - rate) * 2 ^ (52 - Int.log 2 rate) *
              2 ^ (Int.log 2 rate - Int.log 2 (rate / 1000)) := by
          calc (512 : ℚ) = 1 * 512 := by norm_num
            _ ≤ (1000 * ((⌊rate / 1000⌋ : ℚ) + 1) - rate) * 2 ^ (52 - Int.log 2 rate) *
                2 ^ (Int.log 2 rate - Int.log 2 (rate / 1000)) :=
              mul_le_mul hJ hB (by norm_num) (by linarith)
        nlinarith [hprod]
    push_cast at hlt
    exact hlt

theorem divDouble_beat_ge (rate tempo : ℚ) (hdouble : roundDouble rate = rate)
    (hsr : 0 < rate) (htempo : 0 < tempo) (hbeat : 128 ≤ rate * 60 / tempo) :
    128 ≤ divDouble rate (divDouble tempo 60) := by
  have hy : 0 < tempo / 60 := by positivity
  have hyD : tempo / 60 ≤ rate / 128 := by
    rw [le_div_iff₀ htempo] at hbeat
    rw [div_le_div_iff₀ (by norm_num) (by norm_num)]
    linarith
  have hP := lt_zpow_log2_succ hsr
  have hey : Int.log 2 (tempo / 60) < Int.log 2 rate - 6 := by
    apply log2_lt_of_lt hy
    have h2 : (2 : ℚ) ^ (Int.log 2 rate - 6) = 2 ^ (Int.log 2 rate + 1) * 2 ^ (-7 : ℤ) := by
      rw [← zpow_add₀ (by norm_num : (2 : ℚ) ≠ 0)]
      congr 1
      ring
    rw [h2]
    norm_num
    linarith
  obtain ⟨M, hM⟩ := scaled_of_double hsr hdouble
  obtain ⟨KD, hKD, _⟩ :=
    two_zpow_of_nonneg (k := Int.log 2 rate - Int.log 2 (tempo / 60) - 7) (by omega)
  have hsplit : (2 : ℚ) ^ (52 - Int.log 2 (tempo / 60)) =
      2 ^ (52 - Int.log 2 rate) * (2 ^ (Int.log 2 rate - Int.log 2 (tempo / 60) - 7) * 128) := by
    have h128 : (128 : ℚ) = 2 ^ (7 : ℤ) := by norm_num
    rw [h128, ← zpow_add₀ (by norm_num : (2 : ℚ) ≠ 0), ← zpow_add₀ (by norm_num : (2 : ℚ) ≠ 0)]
    congr 1
    ring
  have hround : roundDouble (tempo / 60) ≤ rate / 128 := by
    apply roundDouble_le_of_scaled hy _ (M * KD) _ hyD
    push_cast
    rw [hsplit, ← hM, hKD]
    ring
  have hrpos : 0 < roundDouble (tempo / 60) :=
    lt_of_lt_of_le (by positivity) (zpow_log2_le_roundDouble hy)
  have hz : (128 : ℚ) ≤ rate / roundDouble (tempo / 60) := by
    rw [le_div_iff₀ hrpos]
    linarith
  have hzpos : 0 < rate / roundDouble (tempo / 60) := by positivity
  have h7 : (7 : ℤ) ≤ Int.log 2 (rate / roundDouble (tempo / 60)) := by
    apply le_log2_of_le hzpos
    norm_num
    exact hz
  have hpow : (2 : ℚ) ^ (7 : ℤ) ≤ 2 ^ Int.log 2 (rate / roundDouble (tempo / 60)) :=
    zpow_le_zpow_right₀ (by norm_num) h7
  have := zpow_log2_le_roundDouble hzpos
  unfold divDouble
  norm_num at hpow
  linarith

theorem doubleToUInt64_of_floor (x : ℚ) (n : Nat) (h0 : 0 ≤ x) (h64 : x < 2 ^ 64)
    (hfloor : ⌊x⌋ = (n : ℤ)) : doubleToUInt64 x = some n := by
  unfold doubleToUInt64
  rw [if_pos ⟨h0, h64⟩, hfloor]
  rfl

theorem tickProgram_variables (host : HostInfo) (s : Evaluator) (p : Program)
    (hp : s.mProgram = some p) :
    ∃ p2, (tickProgram host s).mProgram = some p2 ∧
      p2.Get 't' = toValue (s.mTick + 1) ∧
      p2.Get 'm' = p2.Get 't' / host.mdenom ∧
      p2.Get 'q' = p2.Get 't' / host.qdenom := by
  have hlt := toValue_lt (s.mTick + 1)
  have hm : toValue (toValue (s.mTick + 1) / host.mdenom) =
      toValue (s.mTick + 1) / host.mdenom :=
    toValue_of_lt (lt_of_le_of_lt (Nat.div_le_self _ _) hlt)
  have hq : toValue (toValue (s.mTick + 1) / host.qdenom) =
      toValue (s.mTick + 1) / host.qdenom :=
    toValue_of_lt (lt_of_le_of_lt (Nat.div_le_self _ _) hlt)
  refine ⟨((p.Set 't' (toValue (s.mTick + 1))).Set 'm'
      (toValue (s.mTick + 1) / host.mdenom)).Set 'q' (toValue (s.mTick + 1) / host.qdenom),
    by simp only [tickProgram, hp, Option.map_some'], ?_, ?_, ?_⟩
  · simp [Program.Set, Program.Get, VariableTable.set, VariableTable.get, toValue_toValue]
  · simp [Program.Set, Program.Get, VariableTable.set, VariableTable.get, toValue_toValue, hm]
  · simp [Program.Set, Program.Get, VariableTable.set, VariableTable.get, toValue_toValue, hq]

theorem divDouble_125_60 : divDouble 125 60 = 4691249611844267 * 2 ^ (-51 : ℤ) := by
  have h := roundDouble_eq_of_bounds (x := 125 / 60) 1 4691249611844267
    (by norm_num) (by norm_num) (by norm_num) (by norm_num)
  unfold divDouble
  rw [h]
  norm_num

theorem divDouble_32000_beat :
    divDouble 32000 (divDouble 125 60) = 8444249301319679 * 2 ^ (-39 : ℤ) := by
  rw [divDouble_125_60]
  have h := roundDouble_eq_of_bounds
    (x := 32000 / (4691249611844267 * 2 ^ (-51 : ℤ))) 13 8444249301319679
    (by norm_num) (by norm_num) (by norm_num) (by norm_num)
  unfold divDouble
  rw [h]
  norm_num

theorem divDouble_32000_1000 : divDouble 32000 1000 = 32 := by
  have h := roundDouble_eq_of_bounds (x := 32000 / 1000) 5 4503599627370496
    (by norm_num) (by norm_num) (by norm_num) (by norm_num)
  unfold divDouble
  rw [h]
  norm_num

theorem hostOf_of_conversions (rate tempo : ℚ) (m q r : Nat)
    (hm : doubleToUInt64 (divDouble rate 1000) = some m)
    (hq : doubleToUInt64 (divDouble rate (divDouble tempo 60)) = some q)
    (hr : doubleToUInt64 rate = some r) :
    hostOf rate tempo = some ⟨r, m, q / 128⟩ := by
  unfold hostOf
  rw [hm, hq, hr]

theorem mdenom_32000 : doubleToUInt64 (divDouble 32000 1000) = some 32 := by
  rw [divDouble_32000_1000]
  exact doubleToUInt64_of_floor 32 32 (by norm_num) (by norm_num)
    (Int.floor_eq_iff.mpr ⟨by norm_num, by norm_num⟩)

theorem beat_32000_125 :
    doubleToUInt64 (divDouble 32000 (divDouble 125 60)) = some 15359 := by
  rw [divDouble_32000_beat]
  exact doubleToUInt64_of_floor _ 15359 (by norm_num) (by norm_num)
    (Int.floor_eq_iff.mpr ⟨by norm_num, by norm_num⟩)

theorem rate_32000 : doubleToUInt64 32000 = some 32000 :=
  doubleToUInt64_of_floor 32000 32000 (by norm_num) (by norm_num)
    (Int.floor_eq_iff.mpr ⟨by norm_num, by norm_num⟩)

theorem hostOf_32000_125 : hostOf 32000 125 = some ⟨32000, 32, 119⟩ :=
  (hostOf_of_conversions 32000 125 32 15359 32000 mdenom_32000 beat_32000_125
    rate_32000).trans rfl

/-- C5, refuted as stated: at 32000 Hz and 125 beats per minute (15360 samples per beat)
the double quotient `32000/(125/60.0)` is just below 15360 and truncates to 15359, so the
code's `qdenom` is 119 where the claim's `floor(sampleRate*60/tempo) div 128` is 120; at
tick 119 the variable `q` is 1, not `119 div 120 = 0`. -/
theorem double_rounding_lowers_qdenom :
    (1000 : ℚ) ≤ 32000 ∧ (128 : ℚ) ≤ 32000 * 60 / 125 ∧
      hostOf 32000 125 = some ⟨32000, 32, 119⟩ ∧
      ⌊(32000 : ℚ) * 60 / 125⌋.toNat / 128 = 120 ∧
      (tickProgram ⟨32000, 32, 119⟩ { freshPlug with mTick := 118 }).mProgram.map
          (fun p => (p.Get 't', p.Get 'q')) = some (119, 1) ∧
      119 / (⌊(32000 : ℚ) * 60 / 125⌋.toNat / 128) = 0 := by
  have hfloor : ⌊(32000 : ℚ) * 60 / 125⌋ = 15360 :=
    Int.floor_eq_iff.mpr ⟨by norm_num, by norm_num⟩
  refine ⟨by norm_num, by norm_num, hostOf_32000_125, ?_, by decide, ?_⟩
  · rw [hfloor]
    rfl
  · rw [hfloor]
    rfl

/-- C5, amended. For every sample rate that is a double of at least 1000 Hz (and below
`2 ^ 53`) and every tempo giving at least 128 samples per beat (with a quotient that fits
64 bits), both divisors are nonzero and at every run `m = t div floor(sampleRate/1000)` and
`q = t div qdenom`, where `qdenom` is the double-precision quotient
`sampleRate/(tempo/60)`, each division rounded to the nearest double, truncated to an
integer and divided by 128; `t` is the tick set for that sample and `div` is unsigned
64-bit integer division. -/
theorem time_variables_divide_tick (sampleRate tempo : ℚ) (s : Evaluator) (p : Program)
    (hdouble : roundDouble sampleRate = sampleRate) (hrate : 1000 ≤ sampleRate)
    (hrate53 : sampleRate < 2 ^ 53) (htempo : 0 < tempo)
    (hbeat : 128 ≤ sampleRate * 60 / tempo)
    (hfit : divDouble sampleRate (divDouble tempo 60) < 2 ^ 64)
    (hp : s.mProgram = some p) :
    ∃ host p2, hostOf sampleRate tempo = some host ∧
      host.mdenom = ⌊sampleRate / 1000⌋.toNat ∧ host.mdenom ≠ 0 ∧
      host.qdenom = ⌊divDouble sampleRate (divDouble tempo 60)⌋.toNat / 128 ∧
      host.qdenom ≠ 0 ∧
      (tickProgram host s).mProgram = some p2 ∧
      p2.Get 't' = toValue (s.mTick + 1) ∧
      p2.Get 'm' = p2.Get 't' / ⌊sampleRate / 1000⌋.toNat ∧
      p2.Get 'q' = p2.Get 't' / host.qdenom := by
  have hsr : 0 < sampleRate := by linarith
  have hmfloor := floor_divDouble_thousand sampleRate hdouble hrate hrate53
  have hF1 : (1 : ℤ) ≤ ⌊sampleRate / 1000⌋ := by
    apply Int.le_floor.mpr
    rw [le_div_iff₀ (by norm_num)]
    push_cast
    linarith
  have hFle : (⌊sampleRate / 1000⌋ : ℚ) ≤ sampleRate / 1000 := Int.floor_le _
  have hm0 : (0 : ℚ) ≤ divDouble sampleRate 1000 := by
    have h1 : ((⌊divDouble sampleRate 1000⌋ : ℤ) : ℚ) ≤ divDouble sampleRate 1000 :=
      Int.floor_le _
    rw [hmfloor] at h1
    have h2 : (1 : ℚ) ≤ (⌊sampleRate / 1000⌋ : ℚ) := by exact_mod_cast hF1
    linarith
  have hm64 : divDouble sampleRate 1000 < 2 ^ 64 := by
    have h1 : divDouble sampleRate 1000 < (⌊divDouble sampleRate 1000⌋ : ℚ) + 1 :=
      Int.lt_floor_add_one _
    rw [hmfloor] at h1
    have h2 : sampleRate / 1000 < 2 ^ 53 := by
      rw [div_lt_iff₀ (by norm_num)]
      linarith
    have h3 : (2 : ℚ) ^ 53 + 1 < 2 ^ 64 := by norm_num
    linarith
  have hmconv : doubleToUInt64 (divDouble sampleRate 1000) =
      some ⌊sampleRate / 1000⌋.toNat := by
    unfold doubleToUInt64
    rw [if_pos ⟨hm0, hm64⟩, hmfloor]
  have hq128 := divDouble_beat_ge sampleRate tempo hdouble hsr htempo hbeat
  have hqconv : doubleToUInt64 (divDouble sampleRate (divDouble tempo 60)) =
      some ⌊divDouble sampleRate (divDouble tempo 60)⌋.toNat := by
    unfold doubleToUInt64
    rw [if_pos ⟨by linarith, hfit⟩]
  have hrconv : doubleToUInt64 sampleRate = some ⌊sampleRate⌋.toNat := by
    unfold doubleToUInt64
    rw [if_pos ⟨hsr.le, by
      have h3 : (2 : ℚ) ^ 53 < 2 ^ 64 := by norm_num
      linarith⟩]
  have hhost : hostOf sampleRate tempo =
      some ⟨⌊sampleRate⌋.toNat, ⌊sampleRate / 1000⌋.toNat,
        ⌊divDouble sampleRate (divDouble tempo 60)⌋.toNat / 128⟩ := by
    exact hostOf_of_conversions sampleRate tempo _ _ _ hmconv hqconv hrconv
  have hqfloor : (128 : ℤ) ≤ ⌊divDouble sampleRate (divDouble tempo 60)⌋ := by
    apply Int.le_floor.mpr
    push_cast
    exact hq128
  obtain ⟨p2, hp2, ht, hm, hq⟩ := tickProgram_variables
    ⟨⌊sampleRate⌋.toNat, ⌊sampleRate / 1000⌋.toNat,
      ⌊divDouble sampleRate (divDouble tempo 60)⌋.toNat / 128⟩ s p hp
  refine ⟨_, p2, hhost, rfl, ?_, rfl, ?_, hp2, ht, hm, hq⟩
  · show ⌊sampleRate / 1000⌋.toNat ≠ 0
    omega
  · show ⌊divDouble sampleRate (divDouble tempo 60)⌋.toNat / 128 ≠ 0
    omega

theorem double_44100 : roundDouble 44100 = 44100 := by
  have h := roundDouble_eq_of_bounds (x := 44100) 15 6061057848115200
    (by norm_num) (by norm_num) (by norm_num) (by norm_num)
  rw [h]
  norm_num

theorem beat_44100_120 : divDouble 44100 (divDouble 120 60) = 22050 := by
  have h2 : divDouble 120 60 = 2 := by
    have h := roundDouble_eq_of_bounds (x := 120 / 60) 1 4503599627370496
      (by norm_num) (by norm_num) (by norm_num) (by norm_num)
    unfold divDouble
    rw [h]
    norm_num
  rw [h2]
  have h := roundDouble_eq_of_bounds (x := 44100 / 2) 14 6061057848115200
    (by norm_num) (by norm_num) (by norm_num) (by norm_num)
  unfold divDouble
  rw [h]
  norm_num

/-- C5 amended, at 44100 Hz and 120 beats per minute, for the plug-in after `Reset`. -/
theorem time_variables_divide_tick_witness :
    roundDouble 44100 = 44100 ∧ (1000 : ℚ) ≤ 44100 ∧ (44100 : ℚ) < 2 ^ 53 ∧
      (0 : ℚ) < 120 ∧ (128 : ℚ) ≤ 44100 * 60 / 120 ∧
      divDouble 44100 (divDouble 120 60) < 2 ^ 64 ∧
      ∃ host p2, hostOf 44100 120 = some host ∧
        host.mdenom = ⌊(44100 : ℚ) / 1000⌋.toNat ∧ host.mdenom ≠ 0 ∧
        host.qdenom = ⌊divDouble 44100 (divDouble 120 60)⌋.toNat / 128 ∧
        host.qdenom ≠ 0 ∧
        (tickProgram host freshPlug).mProgram = some p2 ∧
        p2.Get 't' = toValue (freshPlug.mTick + 1) ∧
        p2.Get 'm' = p2.Get 't' / ⌊(44100 : ℚ) / 1000⌋.toNat ∧
        p2.Get 'q' = p2.Get 't' / host.qdenom :=
  ⟨double_44100, by norm_num, by norm_num, by norm_num, by norm_num,
    by rw [beat_44100_120]; norm_num,
    time_variables_divide_tick 44100 120 freshPlug
      ⟨[.loadVar 't', .loadConst 128, .binary .mul], VariableTable.zero, 0⟩
      double_44100 (by norm_num) (by norm_num) (by norm_num) (by norm_num)
      (by rw [beat_44100_120]; norm_num) (by decide)⟩


end EvaluatorPlug
